import Mathlib

/-! # Keystone override resolution (`modules/common/keystone/keystone.go`)

A shallow embedding of `GetKeystoneOverridesByLabel` together with the parts of
the Go standard library it calls (`strings.TrimSpace`, `unicode.IsSpace`,
`utf8.DecodeRuneInString`, `utf8.DecodeLastRuneInString`, `fmt.Errorf`),
followed by proofs of the cardinality contract, the whitelist extraction,
trimming, error wrapping and logging.

The library functions are modelled after the Go sources of `unicode/utf8`,
`unicode` and `strings`, statement by statement; loops whose step is a decoded
width carry a fuel argument, and the section on fuel proves it sufficient.

Conventions of the embedding:

* a Go `string` is the list of its bytes (`GoString`), each byte a `Nat`
  below 256; a rune is a `Nat`;
* a Go `[]byte` is `Option (List Nat)`, `none` being the nil slice;
* map keys, object names, namespaces and selectors are Lean strings (only
  their equality matters);
* the store client and the logger are explicit state carried by `Helper`:
  every `List` request and every log call is appended to a trace.
-/

namespace Keystone

/-! ## Go strings and byte slices -/

/-- A Go string: its bytes in order. -/
abbrev GoString := List Nat

/-- A Go byte slice; `none` is the nil slice. -/
abbrev ByteSlice := Option (List Nat)

/-- The conversion `string(v)` of a byte slice: the same bytes; nil gives "". -/
def string (v : ByteSlice) : GoString :=
  match v with
  | none => []
  | some b => b

/-- The bytes of an ASCII literal (for ASCII text the UTF-8 bytes are the code points). -/
def ascii (s : String) : GoString := s.data.map Char.toNat

/-! ## `unicode/utf8` -/

/-- The constant utf8.RuneError, U+FFFD. -/
def RuneError : Nat := 0xFFFD
/-- The constant utf8.RuneSelf: bytes below it are single-byte runes. -/
def RuneSelf : Nat := 0x80
/-- The constant utf8.UTFMax. -/
def UTFMax : Nat := 4

/-- Lowest continuation byte. -/
def locb : Nat := 0x80
/-- Highest continuation byte. -/
def hicb : Nat := 0xBF

/-- Entry of the table utf8.first for an ASCII byte. -/
def first_as : Nat := 0xF0
/-- Entry of the table utf8.first for an invalid leading byte. -/
def first_xx : Nat := 0xF1

/-- The table `utf8.first`: information about the first byte of an encoding
(low three bits: size; high four bits: index into `acceptRanges`). -/
def first (b : Nat) : Nat :=
  if b < 0x80 then first_as
  else if b < 0xC2 then first_xx
  else if b < 0xE0 then 0x02
  else if b = 0xE0 then 0x13
  else if b < 0xED then 0x03
  else if b = 0xED then 0x23
  else if b < 0xF0 then 0x03
  else if b = 0xF0 then 0x34
  else if b < 0xF4 then 0x04
  else if b = 0xF4 then 0x44
  else first_xx

/-- The table `utf8.acceptRanges`: allowed range `(lo, hi)` of the second byte. -/
def acceptRanges (i : Nat) : Nat × Nat :=
  if i = 0 then (locb, hicb)
  else if i = 1 then (0xA0, hicb)
  else if i = 2 then (locb, 0x9F)
  else if i = 3 then (0x90, hicb)
  else if i = 4 then (locb, 0x8F)
  else (0, 0)

/-- Go `utf8.DecodeRuneInString`: the first rune of `s` and its width in bytes.
Masking with `2^k - 1` is `% 2^k`, shifting left by `k` is `* 2^k`, and the
or of the disjoint bit fields is their sum. -/
def DecodeRuneInString (s : GoString) : Nat × Nat :=
  let n := s.length
  if n < 1 then (RuneError, 0)
  else
    let s0 := s.getD 0 0
    let x := first s0
    if x ≥ first_as then
      (if x % 2 = 1 then RuneError else s0, 1)
    else
      let sz := x % 8
      let accept := acceptRanges (x / 16)
      if n < sz then (RuneError, 1)
      else
        let s1 := s.getD 1 0
        if s1 < accept.1 ∨ accept.2 < s1 then (RuneError, 1)
        else if sz ≤ 2 then ((s0 % 32) * 64 + s1 % 64, 2)
        else
          let s2 := s.getD 2 0
          if s2 < locb ∨ hicb < s2 then (RuneError, 1)
          else if sz ≤ 3 then ((s0 % 16) * 4096 + (s1 % 64) * 64 + s2 % 64, 3)
          else
            let s3 := s.getD 3 0
            if s3 < locb ∨ hicb < s3 then (RuneError, 1)
            else ((s0 % 8) * 262144 + (s1 % 64) * 4096 + (s2 % 64) * 64 + s3 % 64, 4)

/-- Go `utf8.RuneStart`: the byte is not a continuation byte (`b & 0xC0 != 0x80`). -/
def RuneStart (b : Nat) : Bool := decide ((b / 64) % 4 ≠ 2)

/-- The backward scan of `utf8.DecodeLastRuneInString`:
`for ; start >= lim; start-- { if RuneStart(s[start]) { break } }`.
The loop runs at most `UTFMax` times; `fuel` bounds it. -/
def scanRuneStart (s : GoString) (lim : Int) : Nat → Int → Int
  | 0, start => start
  | fuel + 1, start =>
    if start ≥ lim then
      if RuneStart (s.getD start.toNat 0) then start
      else scanRuneStart s lim fuel (start - 1)
    else start

/-- Go `utf8.DecodeLastRuneInString`: the last rune of `s` and its width. -/
def DecodeLastRuneInString (s : GoString) : Nat × Nat :=
  let end_ := s.length
  if end_ = 0 then (RuneError, 0)
  else
    let start : Int := (end_ : Int) - 1
    let r := s.getD start.toNat 0
    if r < RuneSelf then (r, 1)
    else
      let lim : Int := (end_ : Int) - (UTFMax : Int)
      let lim : Int := if lim < 0 then 0 else lim
      let start := scanRuneStart s lim UTFMax (start - 1)
      let start : Int := if start < 0 then 0 else start
      let d := DecodeRuneInString (s.drop start.toNat)
      if start.toNat + d.2 ≠ end_ then (RuneError, 1)
      else d

/-! ## `unicode` and `strings` -/

/-- Go `unicode.IsSpace`: the Latin-1 switch, then the White_Space range table. -/
def IsSpace (r : Nat) : Bool :=
  if r ≤ 0xFF then
    decide (r = 0x09 ∨ r = 0x0A ∨ r = 0x0B ∨ r = 0x0C ∨ r = 0x0D ∨ r = 0x20 ∨ r = 0x85 ∨ r = 0xA0)
  else
    decide (r = 0x1680 ∨ (0x2000 ≤ r ∧ r ≤ 0x200A) ∨ (0x2028 ≤ r ∧ r ≤ 0x2029)
      ∨ r = 0x202F ∨ r = 0x205F ∨ r = 0x3000)

/-- The table `strings.asciiSpace`. -/
def asciiSpace (c : Nat) : Bool :=
  decide (c = 0x09 ∨ c = 0x0A ∨ c = 0x0B ∨ c = 0x0C ∨ c = 0x0D ∨ c = 0x20)

/-- The loop of `strings.indexFunc`, `for i, r := range s`: `rest` is `s[i:]`.
Every iteration consumes at least one byte, so `fuel = len(s)` is enough.
`none` is Go's `-1`. -/
def indexFuncLoop (f : Nat → Bool) (truth : Bool) : Nat → GoString → Nat → Option Nat
  | 0, _, _ => none
  | fuel + 1, rest, i =>
    if rest.length = 0 then none
    else
      let d := DecodeRuneInString rest
      if f d.1 == truth then some i
      else indexFuncLoop f truth fuel (rest.drop d.2) (i + d.2)

/-- Go `strings.indexFunc`. -/
def indexFunc (s : GoString) (f : Nat → Bool) (truth : Bool) : Option Nat :=
  indexFuncLoop f truth s.length s 0

/-- The loop of `strings.lastIndexFunc`:
`for i := len(s); i > 0; { r, size := DecodeLastRuneInString(s[0:i]); i -= size; ... }`. -/
def lastIndexFuncLoop (s : GoString) (f : Nat → Bool) (truth : Bool) : Nat → Nat → Option Nat
  | 0, _ => none
  | fuel + 1, i =>
    if i > 0 then
      let d := DecodeLastRuneInString (s.take i)
      let i := i - d.2
      if f d.1 == truth then some i
      else lastIndexFuncLoop s f truth fuel i
    else none

/-- Go `strings.lastIndexFunc`. -/
def lastIndexFunc (s : GoString) (f : Nat → Bool) (truth : Bool) : Option Nat :=
  lastIndexFuncLoop s f truth s.length s.length

/-- Go `strings.TrimLeftFunc`. -/
def TrimLeftFunc (s : GoString) (f : Nat → Bool) : GoString :=
  match indexFunc s f false with
  | none => []
  | some i => s.drop i

/-- Go `strings.TrimRightFunc`. -/
def TrimRightFunc (s : GoString) (f : Nat → Bool) : GoString :=
  match lastIndexFunc s f false with
  | some i =>
    if s.getD i 0 ≥ RuneSelf then
      s.take (i + (DecodeRuneInString (s.drop i)).2)
    else s.take (i + 1)
  | none => s.take 0

/-- Go `strings.TrimFunc`. -/
def TrimFunc (s : GoString) (f : Nat → Bool) : GoString :=
  TrimRightFunc (TrimLeftFunc s f) f

/-- The second loop of `strings.TrimSpace` on `t = s[start:]`, `stop` relative to
`start`: `for ; stop > start; stop-- { c := s[stop-1]; ... }`. -/
def trimSpaceStop (t : GoString) : Nat → GoString
  | 0 => t.take 0
  | stop + 1 =>
    let c := t.getD stop 0
    if c ≥ RuneSelf then TrimRightFunc (t.take (stop + 1)) IsSpace
    else if asciiSpace c = false then t.take (stop + 1)
    else trimSpaceStop t stop

/-- The first loop of `strings.TrimSpace`; the argument is `s[start:]`:
`for ; start < len(s); start++ { c := s[start]; ... }`, followed by the rest
of the function. -/
def trimSpaceStart : GoString → GoString
  | [] => trimSpaceStop [] 0
  | c :: rest =>
    if c ≥ RuneSelf then TrimFunc (c :: rest) IsSpace
    else if asciiSpace c = false then trimSpaceStop (c :: rest) (c :: rest).length
    else trimSpaceStart rest

/-- Go `strings.TrimSpace`: `s` without its leading and trailing white space,
as defined by Unicode. -/
def TrimSpace (s : GoString) : GoString := trimSpaceStart s

/-! ## Reading the decoder by cases, and what trimming should achieve

`decode2`, `decode3` and `decode4` restate the decoder per size of encoding;
`Decode_cons` below proves the table-driven `DecodeRuneInString` equal to them.
`SpaceOnly` and `NoSpaceAtEnds` are the two predicates the trimming theorems
are stated with. -/

/-- Lower bound of the second byte after the leading byte `a`. -/
def secondLo (a : Nat) : Nat := if a = 0xE0 then 0xA0 else if a = 0xF0 then 0x90 else 0x80
/-- Upper bound of the second byte after the leading byte `a`. -/
def secondHi (a : Nat) : Nat := if a = 0xED then 0x9F else if a = 0xF4 then 0x8F else 0xBF

/-- Decoding after a two-byte leading byte. -/
def decode2 (a : Nat) : GoString → Nat × Nat
  | b :: _ => if 0x80 ≤ b ∧ b ≤ 0xBF then ((a % 32) * 64 + b % 64, 2) else (RuneError, 1)
  | [] => (RuneError, 1)

/-- Decoding after a three-byte leading byte. -/
def decode3 (a : Nat) : GoString → Nat × Nat
  | b :: c :: _ =>
    if secondLo a ≤ b ∧ b ≤ secondHi a ∧ 0x80 ≤ c ∧ c ≤ 0xBF then
      ((a % 16) * 4096 + (b % 64) * 64 + c % 64, 3)
    else (RuneError, 1)
  | _ => (RuneError, 1)

/-- Decoding after a four-byte leading byte. -/
def decode4 (a : Nat) : GoString → Nat × Nat
  | b :: c :: d :: _ =>
    if secondLo a ≤ b ∧ b ≤ secondHi a ∧ 0x80 ≤ c ∧ c ≤ 0xBF ∧ 0x80 ≤ d ∧ d ≤ 0xBF then
      ((a % 8) * 262144 + (b % 64) * 4096 + (c % 64) * 64 + d % 64, 4)
    else (RuneError, 1)
  | _ => (RuneError, 1)

/-- The string is a concatenation of complete encodings of white-space runes. -/
inductive SpaceOnly : GoString → Prop
  | nil : SpaceOnly []
  | cons (c rest : GoString) : c ≠ [] → (DecodeRuneInString c).2 = c.length →
      IsSpace (DecodeRuneInString c).1 = true → SpaceOnly rest → SpaceOnly (c ++ rest)

/-- The string is empty, or neither its first nor its last rune is white space. -/
def NoSpaceAtEnds (r : GoString) : Prop :=
  r = [] ∨ (IsSpace (DecodeRuneInString r).1 = false
    ∧ IsSpace (DecodeLastRuneInString r).1 = false)

/-! ## `fmt.Errorf` and errors -/

/-- Go error values. -/
inductive GoError where
  /-- An error made outside this package (by the store client): an identity and
  the text its `Error()` method returns. -/
  | foreign (id : Nat) (text : String)
  /-- What `fmt.Errorf` returns for a format without `%w`: only a message. -/
  | errorString (s : String)
  /-- What `fmt.Errorf` returns for a format with one `%w`: the message and the
  wrapped error. -/
  | wrapError (msg : String) (err : GoError)
  deriving DecidableEq, Repr

/-- The `Error()` method. -/
def GoError.Error : GoError → String
  | .foreign _ text => text
  | .errorString s => s
  | .wrapError msg _ => msg

/-- Go `errors.Unwrap` on the errors `fmt.Errorf` makes: the wrapped error of a
`wrapError`, nil for an `errorString`. (A foreign error is not unwrapped by the
model.) -/
def GoError.Unwrap : GoError → Option GoError
  | .wrapError _ err => some err
  | _ => none

/-! ## Collaborators: store client and logger -/

/-- A `corev1.Secret`, the ConfigObject: its name and its `Data` map. The map
`map[string][]byte` is an association list read with `List.lookup`. -/
structure Secret where
  Name : String
  Data : List (String × ByteSlice)
  deriving DecidableEq, Repr

/-- The `context.Context` handed through to the store client. -/
structure Context where
  id : Nat
  deriving DecidableEq, Repr

/-- One call on the logger: verbosity level (`V(n)`), message, key/value pairs. -/
structure LogEntry where
  level : Nat
  msg : String
  keysAndValues : List (String × String)
  deriving DecidableEq, Repr

/-- One `List` request sent to the store. -/
structure ListCall where
  ctx : Context
  namespace_ : String
  LabelSelector : String
  deriving DecidableEq, Repr

/-- The `helper.Helper` as far as this function uses it: the store behind
`GetKClient()` (what a `Secrets(namespace).List(ctx, opts)` request answers),
the trace of requests sent, and the trace of what `GetLogger()` was given. -/
structure Helper where
  store : Context → String → String → Except GoError (List Secret)
  calls : List ListCall
  logs : List LogEntry

/-- The request `h.GetKClient().CoreV1().Secrets(namespace).List(ctx, opts)`:
the answer of the store, and the helper with the request recorded. -/
def Helper.ListSecrets (h : Helper) (ctx : Context) (namespace_ : String)
    (LabelSelector : String) : Except GoError (List Secret) × Helper :=
  (h.store ctx namespace_ LabelSelector,
    { h with calls := h.calls ++ [⟨ctx, namespace_, LabelSelector⟩] })

/-- The call `h.GetLogger().V(level).Info(msg, keysAndValues...)`. -/
def Helper.Info (h : Helper) (level : Nat) (msg : String)
    (keysAndValues : List (String × String)) : Helper :=
  { h with logs := h.logs ++ [⟨level, msg, keysAndValues⟩] }

/-! ## The override map -/

/-- A Go `map[string]string` under construction: an association list with
distinct keys. -/
abbrev OverrideMap := List (String × GoString)

/-- The assignment `m[k] = v`: replaces the value of an existing key, adds the
key otherwise. -/
def OverrideMap.set : OverrideMap → String → GoString → OverrideMap
  | [], k, v => [(k, v)]
  | (k0, v0) :: m, k, v =>
    if k0 = k then (k0, v) :: m else (k0, v0) :: OverrideMap.set m k v

/-- The keys of a map. -/
def OverrideMap.keys (m : OverrideMap) : List String := m.map Prod.fst

/-- The names of the three recognized fields. -/
def recognized : List String := ["region", "auth_url", "www_authenticate_uri"]

/-! ## `GetKeystoneOverridesByLabel` -/

/-- The function `GetKeystoneOverridesByLabel` of keystone.go. It returns the
pair `(map, error)` (`none` is nil) and the helper after the call. -/
def GetKeystoneOverridesByLabel (ctx : Context) (h : Helper) (namespace_ : String)
    (labelKey : String) : (Option OverrideMap × Option GoError) × Helper :=
  let (res, h) := h.ListSecrets ctx namespace_ labelKey
  match res with
  | .error err =>
    ((none, some (.wrapError
      ("error getting secrets with label " ++ labelKey ++ ": " ++ err.Error) err)), h)
  | .ok secrets =>
    if h0 : secrets.length = 0 then
      let h := h.Info 1 ("No secrets found with label " ++ labelKey) []
      ((some [], none), h)
    else if secrets.length > 1 then
      ((none, some (.errorString
        ("multiple secrets found with label " ++ labelKey ++ ", only one is allowed"))), h)
    else
      let secretObj := secrets.get ⟨0, Nat.pos_of_ne_zero h0⟩
      let overrides : OverrideMap := []
      let (overrides, h) :=
        match secretObj.Data.lookup "region" with
        | some v => (overrides.set "region" (TrimSpace (string v)), h)
        | none =>
          (overrides, h.Info 0 "region key not found in keystone overrides secret"
            [("secretName", secretObj.Name)])
      let (overrides, h) :=
        match secretObj.Data.lookup "auth_url" with
        | some v => (overrides.set "auth_url" (TrimSpace (string v)), h)
        | none =>
          (overrides, h.Info 0 "auth_url key not found in keystone overrides secret"
            [("secretName", secretObj.Name)])
      let (overrides, h) :=
        match secretObj.Data.lookup "www_authenticate_uri" with
        | some v => (overrides.set "www_authenticate_uri" (TrimSpace (string v)), h)
        | none =>
          (overrides, h.Info 0 "www_authenticate_uri key not found in keystone overrides secret"
            [("secretName", secretObj.Name)])
      ((some overrides, none), h)

/-! ## The extraction in closed form

The same extraction written once over the list of recognized names, as a
reference to compare the code with. -/

/-- The entries the single matched secret contributes: for each recognized name
present in `data`, in order, the name with the trimmed string of its payload. -/
def presentEntries (data : List (String × ByteSlice)) : OverrideMap :=
  recognized.filterMap (fun k => (data.lookup k).map (fun v => (k, TrimSpace (string v))))

/-- The observation logged for a recognized field missing from a secret. -/
def missingFieldEntry (secretName : String) (field : String) : LogEntry :=
  ⟨0, field ++ " key not found in keystone overrides secret", [("secretName", secretName)]⟩

/-- The observations for the recognized names absent from the secret, in order. -/
def missingFieldLogs (secretObj : Secret) : List LogEntry :=
  (recognized.filter (fun k => (secretObj.Data.lookup k).isNone)).map
    (missingFieldEntry secretObj.Name)

/-! ## Example inputs -/

/-- A helper whose store answers every request with `res`, with nothing sent
or logged yet. -/
def helperAnswering (res : Except GoError (List Secret)) : Helper :=
  ⟨fun _ _ _ => res, [], []⟩

/-- The secret of the scenario: region (padded with blanks) and auth_url only. -/
def scenarioSecret : Secret :=
  ⟨"keystone-overrides",
    [("region", some (ascii " regionOne ")), ("auth_url", some (ascii "https://kc.example/v3"))]⟩

/-- A secret with the three recognized fields, each padded differently, and two
fields the function does not know. -/
def fullSecret : Secret :=
  ⟨"central-keystone",
    [("password", some (ascii "hunter2")),
     ("region", some (ascii "\tregionTwo\n")),
     ("auth_url", some (ascii "  https://example.com  ")),
     ("www_authenticate_uri", some (ascii " https://example.com/v3 identity ")),
     ("tenant", some (ascii "admin"))]⟩

/-- A secret whose recognized fields are present with a nil payload, a
zero-length payload, and a payload of white space only (a blank, a no-break
space U+00A0, an ideographic space U+3000 and a tab). -/
def blankSecret : Secret :=
  ⟨"blank",
    [("region", none),
     ("auth_url", some []),
     ("www_authenticate_uri", some [0x20, 0xC2, 0xA0, 0xE3, 0x80, 0x80, 0x09])]⟩

/-- The same recognized fields as `scenarioSecret` under another name and with
other fields around them. -/
def scenarioSecretRenamed : Secret :=
  ⟨"another-name",
    [("unrelated", some (ascii "x")),
     ("auth_url", some (ascii "https://kc.example/v3")),
     ("region", some (ascii " regionOne ")),
     ("note", none)]⟩

/-- An error as the store client may return it. -/
def forbidden : GoError := GoError.foreign 403 "secrets is forbidden"

/-! ## The decoder -/

/-- Decoding the empty string gives RuneError with width 0. -/
theorem Decode_nil : DecodeRuneInString [] = (RuneError, 0) := by
  simp [DecodeRuneInString]

/-- The table-driven decoder read by cases on the leading byte: ASCII, invalid,
or the start of a two-, three- or four-byte encoding. -/
theorem Decode_cons (a : Nat) (rest : GoString) :
    DecodeRuneInString (a :: rest) =
      if a < 0x80 then (a, 1)
      else if a < 0xC2 ∨ 0xF4 < a then (RuneError, 1)
      else if a < 0xE0 then decode2 a rest
      else if a < 0xF0 then decode3 a rest
      else decode4 a rest := by
  by_cases h1 : a < 0x80
  · have hf : first a = 0xF0 := by simp [first, h1, first_as]
    simp [DecodeRuneInString, hf, h1, first_as]
  by_cases h2 : a < 0xC2
  · have hf : first a = 0xF1 := by simp [first, h1, h2, first_xx]
    simp [DecodeRuneInString, hf, h1, h2, first_as]
  by_cases h3 : a < 0xE0
  · have hf : first a = 0x02 := by simp [first, h1, h2, h3]
    have h4 : ¬ 0xF4 < a := by omega
    rcases rest with _ | ⟨b, r⟩
    · simp [DecodeRuneInString, hf, h1, h2, h3, h4, first_as, acceptRanges, locb, hicb, decode2]
    · simp [DecodeRuneInString, hf, h1, h2, h3, h4, first_as, acceptRanges, locb, hicb, decode2]
      split_ifs <;> first | omega | rfl
  by_cases h4 : a = 0xE0
  · have hf : first a = 0x13 := by simp [first, h4]
    have ha : (a = 0xE0) ∧ ¬ (a = 0xED) := by omega
    have hlo : secondLo a = 0xA0 := by simp [secondLo, ha]
    have hhi : secondHi a = 0xBF := by simp [secondHi, ha]
    have e1 : ¬ 0xF4 < a := by omega
    have e2 : a < 0xF0 := by omega
    simp only [h1, h2, h3, e1, e2, or_self, if_false, if_true, hlo, hhi]
    rcases rest with _ | ⟨b, _ | ⟨c, r⟩⟩
    · simp [DecodeRuneInString, hf, first_as, acceptRanges, locb, hicb, decode3]
    · simp [DecodeRuneInString, hf, first_as, acceptRanges, locb, hicb, decode3]
    · simp [DecodeRuneInString, hf, first_as, acceptRanges, locb, hicb, decode3, hlo, hhi]
      split_ifs <;> first | omega | rfl
  by_cases h5 : a < 0xED
  · have hf : first a = 0x03 := by simp [first, h1, h2, h3, h4, h5]
    have ha : ¬ (a = 0xE0) ∧ ¬ (a = 0xF0) ∧ ¬ (a = 0xED) ∧ ¬ (a = 0xF4) := by omega
    have hlo : secondLo a = 0x80 := by simp [secondLo, ha]
    have hhi : secondHi a = 0xBF := by simp [secondHi, ha]
    have e1 : ¬ 0xF4 < a := by omega
    have e2 : a < 0xF0 := by omega
    simp only [h1, h2, h3, e1, e2, or_self, if_false, if_true, hlo, hhi]
    rcases rest with _ | ⟨b, _ | ⟨c, r⟩⟩
    · simp [DecodeRuneInString, hf, first_as, acceptRanges, locb, hicb, decode3]
    · simp [DecodeRuneInString, hf, first_as, acceptRanges, locb, hicb, decode3]
    · simp [DecodeRuneInString, hf, first_as, acceptRanges, locb, hicb, decode3, hlo, hhi]
      split_ifs <;> first | omega | rfl
  by_cases h6 : a = 0xED
  · have hf : first a = 0x23 := by simp [first, h6]
    have ha : ¬ (a = 0xE0) ∧ ¬ (a = 0xF0) ∧ (a = 0xED) := by omega
    have hlo : secondLo a = 0x80 := by simp [secondLo, ha]
    have hhi : secondHi a = 0x9F := by simp [secondHi, ha]
    have e1 : ¬ 0xF4 < a := by omega
    have e2 : a < 0xF0 := by omega
    simp only [h1, h2, h3, e1, e2, or_self, if_false, if_true, hlo, hhi]
    rcases rest with _ | ⟨b, _ | ⟨c, r⟩⟩
    · simp [DecodeRuneInString, hf, first_as, acceptRanges, locb, hicb, decode3]
    · simp [DecodeRuneInString, hf, first_as, acceptRanges, locb, hicb, decode3]
    · simp [DecodeRuneInString, hf, first_as, acceptRanges, locb, hicb, decode3, hlo, hhi]
      split_ifs <;> first | omega | rfl
  by_cases h7 : a < 0xF0
  · have hf : first a = 0x03 := by simp [first, h1, h2, h3, h4, h5, h6, h7]
    have ha : ¬ (a = 0xE0) ∧ ¬ (a = 0xF0) ∧ ¬ (a = 0xED) ∧ ¬ (a = 0xF4) := by omega
    have hlo : secondLo a = 0x80 := by simp [secondLo, ha]
    have hhi : secondHi a = 0xBF := by simp [secondHi, ha]
    have e1 : ¬ 0xF4 < a := by omega
    have e2 : a < 0xF0 := by omega
    simp only [h1, h2, h3, e1, e2, or_self, if_false, if_true, hlo, hhi]
    rcases rest with _ | ⟨b, _ | ⟨c, r⟩⟩
    · simp [DecodeRuneInString, hf, first_as, acceptRanges, locb, hicb, decode3]
    · simp [DecodeRuneInString, hf, first_as, acceptRanges, locb, hicb, decode3]
    · simp [DecodeRuneInString, hf, first_as, acceptRanges, locb, hicb, decode3, hlo, hhi]
      split_ifs <;> first | omega | rfl
  by_cases h8 : a = 0xF0
  · have hf : first a = 0x34 := by simp [first, h8]
    have ha : ¬ (a = 0xE0) ∧ (a = 0xF0) ∧ ¬ (a = 0xED) ∧ ¬ (a = 0xF4) := by omega
    have hlo : secondLo a = 0x90 := by simp [secondLo, ha]
    have hhi : secondHi a = 0xBF := by simp [secondHi, ha]
    have e1 : ¬ 0xF4 < a := by omega
    have e2 : ¬ a < 0xF0 := by omega
    simp only [h1, h2, h3, e1, e2, or_self, if_false, if_true, hlo, hhi]
    rcases rest with _ | ⟨b, _ | ⟨c, _ | ⟨d, r⟩⟩⟩
    · simp [DecodeRuneInString, hf, first_as, acceptRanges, locb, hicb, decode4]
    · simp [DecodeRuneInString, hf, first_as, acceptRanges, locb, hicb, decode4]
    · simp [DecodeRuneInString, hf, first_as, acceptRanges, locb, hicb, decode4]
    · simp [DecodeRuneInString, hf, first_as, acceptRanges, locb, hicb, decode4, hlo, hhi]
      split_ifs <;> first | omega | rfl
  by_cases h9 : a < 0xF4
  · have hf : first a = 0x04 := by simp [first, h1, h2, h3, h4, h5, h6, h7, h8, h9]
    have ha : ¬ (a = 0xE0) ∧ ¬ (a = 0xF0) ∧ ¬ (a = 0xED) ∧ ¬ (a = 0xF4) := by omega
    have hlo : secondLo a = 0x80 := by simp [secondLo, ha]
    have hhi : secondHi a = 0xBF := by simp [secondHi, ha]
    have e1 : ¬ 0xF4 < a := by omega
    have e2 : ¬ a < 0xF0 := by omega
    simp only [h1, h2, h3, e1, e2, or_self, if_false, if_true, hlo, hhi]
    rcases rest with _ | ⟨b, _ | ⟨c, _ | ⟨d, r⟩⟩⟩
    · simp [DecodeRuneInString, hf, first_as, acceptRanges, locb, hicb, decode4]
    · simp [DecodeRuneInString, hf, first_as, acceptRanges, locb, hicb, decode4]
    · simp [DecodeRuneInString, hf, first_as, acceptRanges, locb, hicb, decode4]
    · simp [DecodeRuneInString, hf, first_as, acceptRanges, locb, hicb, decode4, hlo, hhi]
      split_ifs <;> first | omega | rfl
  by_cases h10 : a = 0xF4
  · have hf : first a = 0x44 := by simp [first, h10]
    have ha : ¬ (a = 0xE0) ∧ ¬ (a = 0xF0) ∧ ¬ (a = 0xED) ∧ (a = 0xF4) := by omega
    have hlo : secondLo a = 0x80 := by simp [secondLo, ha]
    have hhi : secondHi a = 0x8F := by simp [secondHi, ha]
    have e1 : ¬ 0xF4 < a := by omega
    have e2 : ¬ a < 0xF0 := by omega
    simp only [h1, h2, h3, e1, e2, or_self, if_false, if_true, hlo, hhi]
    rcases rest with _ | ⟨b, _ | ⟨c, _ | ⟨d, r⟩⟩⟩
    · simp [DecodeRuneInString, hf, first_as, acceptRanges, locb, hicb, decode4]
    · simp [DecodeRuneInString, hf, first_as, acceptRanges, locb, hicb, decode4]
    · simp [DecodeRuneInString, hf, first_as, acceptRanges, locb, hicb, decode4]
    · simp [DecodeRuneInString, hf, first_as, acceptRanges, locb, hicb, decode4, hlo, hhi]
      split_ifs <;> first | omega | rfl
  · have hf : first a = 0xF1 := by
      simp [first, h1, h2, h3, h4, h5, h6, h7, h8, h9, h10, first_xx]
    have e1 : 0xF4 < a := by omega
    simp [DecodeRuneInString, hf, h1, h2, e1, first_as]

/-- RuneError is not white space. -/
theorem IsSpace_RuneError : IsSpace RuneError = false := by decide

/-- On a non-empty string the decoder consumes at least one byte and no more
than there are. -/
theorem Decode_size (a : Nat) (rest : GoString) :
    1 ≤ (DecodeRuneInString (a :: rest)).2 ∧
      (DecodeRuneInString (a :: rest)).2 ≤ (a :: rest).length := by
  rw [Decode_cons]
  rcases rest with _ | ⟨b, _ | ⟨c, _ | ⟨d, r⟩⟩⟩ <;>
  simp only [decode2, decode3, decode4, List.length_cons, List.length_nil] <;>
  split_ifs <;> simp

/-- A decoded white-space rune comes from a complete encoding at the head of the
string, and decoding does not look past it. -/
theorem Decode_space (s : GoString) (hs : IsSpace (DecodeRuneInString s).1 = true) :
    ∃ c t, s = c ++ t ∧ c ≠ [] ∧ (DecodeRuneInString s).2 = c.length
      ∧ (∀ u, DecodeRuneInString (c ++ u) = DecodeRuneInString s)
      ∧ (∃ a r, c = a :: r ∧ (a < 0x80 ∨ 0xBF < a)) := by
  rcases s with _ | ⟨a, rest⟩
  · simp [Decode_nil, IsSpace_RuneError] at hs
  rw [Decode_cons] at hs ⊢
  by_cases h1 : a < 0x80
  · refine ⟨[a], rest, rfl, by simp, by simp [h1], ?_, a, [], rfl, Or.inl h1⟩
    intro u
    simp [Decode_cons, h1]
  by_cases h2 : a < 0xC2 ∨ 0xF4 < a
  · simp [h1, h2, IsSpace_RuneError] at hs
  have h3 : 0xBF < a := by omega
  simp only [h1, h2, if_false] at hs ⊢
  by_cases h4 : a < 0xE0
  · simp only [h4, if_true] at hs ⊢
    rcases rest with _ | ⟨b, r⟩
    · simp [decode2, IsSpace_RuneError] at hs
    · by_cases hb : 0x80 ≤ b ∧ b ≤ 0xBF
      · refine ⟨[a, b], r, rfl, by simp, by simp [decode2, hb], ?_, a, [b], rfl, Or.inr h3⟩
        intro u
        simp [Decode_cons, h1, h2, h4, decode2, hb]
      · simp [decode2, hb, IsSpace_RuneError] at hs
  by_cases h5 : a < 0xF0
  · simp only [h4, h5, if_true, if_false] at hs ⊢
    rcases rest with _ | ⟨b, _ | ⟨c, r⟩⟩
    · simp [decode3, IsSpace_RuneError] at hs
    · simp [decode3, IsSpace_RuneError] at hs
    · by_cases hb : secondLo a ≤ b ∧ b ≤ secondHi a ∧ 0x80 ≤ c ∧ c ≤ 0xBF
      · refine ⟨[a, b, c], r, rfl, by simp, by simp [decode3, hb], ?_, a, [b, c], rfl, Or.inr h3⟩
        intro u
        simp [Decode_cons, h1, h2, h4, h5, decode3, hb]
      · simp [decode3, hb, IsSpace_RuneError] at hs
  · simp only [h4, h5, if_false] at hs ⊢
    rcases rest with _ | ⟨b, _ | ⟨c, _ | ⟨d, r⟩⟩⟩
    · simp [decode4, IsSpace_RuneError] at hs
    · simp [decode4, IsSpace_RuneError] at hs
    · simp [decode4, IsSpace_RuneError] at hs
    · by_cases hb : secondLo a ≤ b ∧ b ≤ secondHi a ∧ 0x80 ≤ c ∧ c ≤ 0xBF ∧ 0x80 ≤ d ∧ d ≤ 0xBF
      · refine ⟨[a, b, c, d], r, rfl, by simp, by simp [decode4, hb], ?_, a, [b, c, d], rfl,
          Or.inr h3⟩
        intro u
        simp [Decode_cons, h1, h2, h4, h5, decode4, hb]
      · simp [decode4, hb, IsSpace_RuneError] at hs

/-- The second byte of an encoding is never below the continuation range. -/
theorem secondLo_ge (a : Nat) : 0x80 ≤ secondLo a := by
  unfold secondLo; split_ifs <;> omega

/-- The second byte of an encoding is never above the continuation range. -/
theorem secondHi_le (a : Nat) : secondHi a ≤ 0xBF := by
  unfold secondHi; split_ifs <;> omega

/-- Decoding a string that is one whole rune is not changed by appending bytes
that do not start with a continuation byte. -/
theorem Decode_append_full (c post : GoString) (hc : c ≠ [])
    (hfull : (DecodeRuneInString c).2 = c.length)
    (hpost : ∀ p r, post = p :: r → p < 0x80 ∨ 0xBF < p) :
    DecodeRuneInString (c ++ post) = DecodeRuneInString c := by
  rcases c with _ | ⟨a, rest⟩
  · exact absurd rfl hc
  have hlo := secondLo_ge a
  have hhi := secondHi_le a
  rw [List.cons_append, Decode_cons, Decode_cons]
  rw [Decode_cons] at hfull
  by_cases h1 : a < 0x80
  · simp [h1]
  by_cases h2 : a < 0xC2 ∨ 0xF4 < a
  · simp [h1, h2]
  simp only [h1, h2, if_false] at hfull ⊢
  by_cases h4 : a < 0xE0
  · simp only [h4, if_true] at hfull ⊢
    rcases rest with _ | ⟨b, r⟩
    · rcases post with _ | ⟨p, q⟩
      · rfl
      · have := hpost p q rfl
        have hn : ¬ (0x80 ≤ p ∧ p ≤ 0xBF) := by omega
        simp [decode2, hn]
    · simp [decode2]
  by_cases h5 : a < 0xF0
  · simp only [h4, h5, if_true, if_false] at hfull ⊢
    rcases rest with _ | ⟨b, _ | ⟨c, r⟩⟩
    · rcases post with _ | ⟨p, _ | ⟨p2, q⟩⟩
      · rfl
      · simp [decode3]
      · have := hpost p (p2 :: q) rfl
        have hn : ¬ (secondLo a ≤ p ∧ p ≤ secondHi a ∧ 0x80 ≤ p2 ∧ p2 ≤ 0xBF) := by omega
        simp [decode3, hn]
    · simp [decode3] at hfull
    · simp [decode3]
  · simp only [h4, h5, if_false] at hfull ⊢
    rcases rest with _ | ⟨b, _ | ⟨c, _ | ⟨d, r⟩⟩⟩
    · rcases post with _ | ⟨p, _ | ⟨p2, _ | ⟨p3, q⟩⟩⟩
      · rfl
      · simp [decode4]
      · simp [decode4]
      · have := hpost p (p2 :: p3 :: q) rfl
        have hn : ¬ (secondLo a ≤ p ∧ p ≤ secondHi a ∧ 0x80 ≤ p2 ∧ p2 ≤ 0xBF
            ∧ 0x80 ≤ p3 ∧ p3 ≤ 0xBF) := by omega
        simp [decode4, hn]
    · simp [decode4] at hfull
    · simp [decode4] at hfull
    · simp [decode4]

/-- A single byte at or above RuneSelf decodes to RuneError with width 1. -/
theorem Decode_single_high (a : Nat) (ha : 0x80 ≤ a) :
    DecodeRuneInString [a] = (RuneError, 1) := by
  rw [Decode_cons]
  have h1 : ¬ a < 0x80 := by omega
  simp only [h1, if_false, decode2, decode3, decode4]
  split_ifs <;> rfl

/-- A leading byte below RuneSelf is its own rune, of width 1. -/
theorem Decode_low (a : Nat) (rest : GoString) (ha : a < 0x80) :
    DecodeRuneInString (a :: rest) = (a, 1) := by
  rw [Decode_cons]; simp [ha]

/-- The backward scan never moves forward. -/
theorem scanRuneStart_le (s : GoString) (lim : Int) (fuel : Nat) (start : Int) :
    scanRuneStart s lim fuel start ≤ start := by
  induction fuel generalizing start with
  | zero => simp [scanRuneStart]
  | succ n ih =>
    unfold scanRuneStart
    split_ifs
    · exact le_refl _
    · have := ih (start - 1)
      omega
    · exact le_refl _

/-- The slice `t[i:]` starts with the byte `t[i]`. -/
theorem drop_eq_getD_cons (t : GoString) (i : Nat) (h : i < t.length) :
    t.drop i = t.getD i 0 :: t.drop (i + 1) := by
  rw [List.drop_eq_getElem_cons h, List.getD_eq_getElem _ _ h]

/-- The last rune agrees with decoding the last `size` bytes forward. -/
theorem DecodeLast_spec (t : GoString) (ht : t ≠ []) :
    1 ≤ (DecodeLastRuneInString t).2 ∧ (DecodeLastRuneInString t).2 ≤ t.length
      ∧ DecodeRuneInString (t.drop (t.length - (DecodeLastRuneInString t).2))
          = DecodeLastRuneInString t := by
  have hlen : 0 < t.length := List.length_pos.mpr ht
  have hlast : t.drop (t.length - 1) = [t.getD (t.length - 1) 0] := by
    rw [drop_eq_getD_cons t (t.length - 1) (by omega)]
    have : t.length - 1 + 1 = t.length := by omega
    rw [this, List.drop_length]
  have hidx : ((t.length : Int) - 1).toNat = t.length - 1 := by omega
  unfold DecodeLastRuneInString
  simp only [hidx]
  have h0 : ¬ t.length = 0 := by omega
  simp only [h0, if_false]
  by_cases hr : t.getD (t.length - 1) 0 < RuneSelf
  · simp only [hr, if_true]
    refine ⟨le_refl _, hlen, ?_⟩
    rw [hlast]
    exact Decode_low _ _ hr
  simp only [hr, if_false]
  generalize hst : scanRuneStart t (if (t.length : Int) - (UTFMax : Int) < 0 then 0
      else (t.length : Int) - (UTFMax : Int)) UTFMax ((t.length : Int) - 1 - 1) = st
  have hle : st ≤ (t.length : Int) - 1 - 1 := by
    rw [← hst]; exact scanRuneStart_le _ _ _ _
  generalize hk : (if st < 0 then (0 : Int) else st).toNat = k
  have hk2 : k < t.length := by
    rw [← hk]; split_ifs <;> omega
  by_cases hne : k + (DecodeRuneInString (t.drop k)).2 ≠ t.length
  · rw [if_pos hne]
    refine ⟨le_refl _, hlen, ?_⟩
    rw [hlast]
    exact Decode_single_high _ (by unfold RuneSelf at hr; omega)
  · rw [if_neg hne]
    have heq : k + (DecodeRuneInString (t.drop k)).2 = t.length := by omega
    have hsz : 1 ≤ (DecodeRuneInString (t.drop k)).2 := by
      rw [drop_eq_getD_cons t k hk2]
      exact (Decode_size _ _).1
    refine ⟨hsz, by omega, ?_⟩
    have : t.length - (DecodeRuneInString (t.drop k)).2 = k := by omega
    rw [this]

/-- White-space-only strings are closed under concatenation. -/
theorem SpaceOnly_append (a b : GoString) (ha : SpaceOnly a) (hb : SpaceOnly b) :
    SpaceOnly (a ++ b) := by
  induction ha with
  | nil => simpa using hb
  | cons c rest hc hfull hsp _ ih =>
    rw [List.append_assoc]
    exact SpaceOnly.cons c (rest ++ b) hc hfull hsp ih

/-- Decoding a white-space rune is not changed by appending bytes. -/
theorem Decode_append_space (r u : GoString) (hs : IsSpace (DecodeRuneInString r).1 = true) :
    DecodeRuneInString (r ++ u) = DecodeRuneInString r := by
  obtain ⟨c, t, hrc, _, _, hstab, _⟩ := Decode_space r hs
  rw [hrc, List.append_assoc, hstab, ← hrc]

/-- The first rune of a non-empty white-space-only string is white space. -/
theorem SpaceOnly_decode (s : GoString) (hs : SpaceOnly s) (hne : s ≠ []) :
    IsSpace (DecodeRuneInString s).1 = true := by
  cases hs with
  | nil => exact absurd rfl hne
  | cons c rest hc hfull hsp _ =>
    rw [Decode_append_space c rest hsp]; exact hsp

/-- A white-space-only string does not start with a continuation byte. -/
theorem SpaceOnly_head (s : GoString) (hs : SpaceOnly s) :
    ∀ p r, s = p :: r → p < 0x80 ∨ 0xBF < p := by
  intro p r hpr
  have hne : s ≠ [] := by rw [hpr]; simp
  have hsp := SpaceOnly_decode s hs hne
  obtain ⟨c, t, hrc, _, _, _, a, q, hcq, ha⟩ := Decode_space s hsp
  rw [hrc, hcq] at hpr
  simp only [List.cons_append, List.cons.injEq] at hpr
  rw [← hpr.1]; exact ha

/-- On ASCII bytes `unicode.IsSpace` and the table `asciiSpace` agree. -/
theorem IsSpace_ascii (c : Nat) (hc : c < 0x80) : IsSpace c = asciiSpace c := by
  unfold IsSpace asciiSpace
  have : c ≤ 0xFF := by omega
  simp only [this, if_true]
  congr 1
  apply propext
  constructor <;> intro h <;> omega

/-- A single ASCII white-space byte is a white-space-only string. -/
theorem SpaceOnly_ascii (c : Nat) (rest : GoString) (hc : c < 0x80) (hsp : asciiSpace c = true)
    (hrest : SpaceOnly rest) : SpaceOnly (c :: rest) := by
  have := SpaceOnly.cons [c] rest (by simp) (by rw [Decode_low c [] hc]; rfl)
    (by rw [Decode_low c [] hc, IsSpace_ascii c hc]; exact hsp) hrest
  simpa using this

/-- Cutting white space off the end keeps a non-space first rune. -/
theorem left_edge (t r post : GoString) (ht : t = r ++ post)
    (hl : t = [] ∨ IsSpace (DecodeRuneInString t).1 = false) :
    r = [] ∨ IsSpace (DecodeRuneInString r).1 = false := by
  by_cases hr : r = []
  · exact Or.inl hr
  right
  rcases hl with hl | hl
  · rw [hl] at ht
    have := List.append_eq_nil.mp ht.symm
    exact absurd this.1 hr
  · by_contra hcon
    have hsp : IsSpace (DecodeRuneInString r).1 = true := by
      simpa using hcon
    rw [ht, Decode_append_space r post hsp, hsp] at hl
    exact absurd hl (by simp)

/-- The loop of indexFunc for white space: it stops at the first rune that is
not white space, having skipped only white space. -/
theorem indexFuncLoop_spec (fuel : Nat) (rest : GoString) (i : Nat)
    (hfuel : rest.length ≤ fuel) :
    (indexFuncLoop IsSpace false fuel rest i = none ∧ SpaceOnly rest) ∨
    (∃ pre r, rest = pre ++ r ∧ SpaceOnly pre ∧ r ≠ []
      ∧ IsSpace (DecodeRuneInString r).1 = false
      ∧ indexFuncLoop IsSpace false fuel rest i = some (i + pre.length)) := by
  induction fuel generalizing rest i with
  | zero =>
    have : rest = [] := List.length_eq_zero.mp (by omega)
    subst this
    exact Or.inl ⟨rfl, SpaceOnly.nil⟩
  | succ n ih =>
    unfold indexFuncLoop
    by_cases h0 : rest.length = 0
    · have : rest = [] := List.length_eq_zero.mp h0
      subst this
      exact Or.inl ⟨by simp, SpaceOnly.nil⟩
    simp only [h0, if_false]
    have hne : rest ≠ [] := fun h => h0 (by rw [h]; rfl)
    by_cases hsp : IsSpace (DecodeRuneInString rest).1 = true
    · obtain ⟨c, t, hrc, hc, hlen, hstab, _⟩ := Decode_space rest hsp
      have hdrop : rest.drop (DecodeRuneInString rest).2 = t := by
        rw [hlen]; nth_rewrite 1 [hrc]; exact List.drop_left' rfl
      have hcfull : DecodeRuneInString c = DecodeRuneInString rest := by
        have := hstab []; simpa using this
      have hclen : 0 < c.length := List.length_pos.mpr hc
      have htlen : t.length ≤ n := by
        have : rest.length = c.length + t.length := by rw [hrc, List.length_append]
        omega
      simp only [hsp, hdrop, beq_iff_eq, Bool.true_eq_false, if_false]
      rcases ih t (i + (DecodeRuneInString rest).2) htlen with ⟨h1, h2⟩ | ⟨pre, r, h1, h2, h3, h4, h5⟩
      · left
        refine ⟨h1, ?_⟩
        rw [hrc]
        exact SpaceOnly.cons c t hc (by rw [hcfull]; exact hlen) (by rw [hcfull]; exact hsp) h2
      · right
        refine ⟨c ++ pre, r, by rw [hrc, h1, List.append_assoc], ?_, h3, h4, ?_⟩
        · exact SpaceOnly.cons c pre hc (by rw [hcfull]; exact hlen) (by rw [hcfull]; exact hsp) h2
        · rw [h5, hlen, List.length_append]; congr 1; omega
    · right
      have hf : IsSpace (DecodeRuneInString rest).1 = false := by simpa using hsp
      refine ⟨[], rest, rfl, SpaceOnly.nil, hne, hf, ?_⟩
      simp [hf]

/-- TrimLeftFunc with IsSpace removes a white-space-only prefix and leaves a
string that is empty or starts with a rune that is not white space. -/
theorem TrimLeftFunc_spec (s : GoString) :
    ∃ pre, s = pre ++ TrimLeftFunc s IsSpace ∧ SpaceOnly pre
      ∧ (TrimLeftFunc s IsSpace = [] ∨
          IsSpace (DecodeRuneInString (TrimLeftFunc s IsSpace)).1 = false) := by
  unfold TrimLeftFunc indexFunc
  rcases indexFuncLoop_spec s.length s 0 (le_refl _) with ⟨h1, h2⟩ | ⟨pre, r, h1, h2, h3, h4, h5⟩
  · rw [h1]
    exact ⟨s, by simp, h2, Or.inl rfl⟩
  · rw [h5]
    have : s.drop (0 + pre.length) = r := by
      rw [Nat.zero_add]; nth_rewrite 1 [h1]; exact List.drop_left' rfl
    simp only [this]
    exact ⟨pre, h1, h2, Or.inr h4⟩

/-- The slice `s[k:]` is `s[k:j]` followed by `s[j:]`. -/
theorem drop_eq_chunk_append (s : GoString) (k j : Nat) (hkj : k ≤ j) (hj : j ≤ s.length) :
    s.drop k = (s.take j).drop k ++ s.drop j := by
  have hlen : (s.take j).length = j := by simp [List.length_take, hj]
  nth_rewrite 1 [← List.take_append_drop j s]
  exact List.drop_append_of_le_length (by omega)

/-- The loop of lastIndexFunc for white space: it stops at the last rune that is
not white space, having skipped only white space behind it. -/
theorem lastIndexFuncLoop_spec (s : GoString) (fuel i : Nat) (hi : i ≤ fuel)
    (hlen : i ≤ s.length) (hpost : SpaceOnly (s.drop i)) :
    (lastIndexFuncLoop s IsSpace false fuel i = none ∧ SpaceOnly s) ∨
    (∃ k j, lastIndexFuncLoop s IsSpace false fuel i = some k ∧ k < j ∧ j ≤ s.length
      ∧ SpaceOnly (s.drop j)
      ∧ DecodeRuneInString ((s.take j).drop k) = DecodeLastRuneInString (s.take j)
      ∧ (DecodeLastRuneInString (s.take j)).2 = j - k
      ∧ IsSpace (DecodeLastRuneInString (s.take j)).1 = false) := by
  induction fuel generalizing i with
  | zero =>
    have : i = 0 := by omega
    subst this
    exact Or.inl ⟨rfl, by simpa using hpost⟩
  | succ n ih =>
    unfold lastIndexFuncLoop
    by_cases h0 : i > 0
    · simp only [h0, if_true]
      have htl : (s.take i).length = i := by simp [List.length_take, hlen]
      have hne : s.take i ≠ [] := by
        intro h; rw [h] at htl; simp at htl; omega
      obtain ⟨hd1, hd2, hd3⟩ := DecodeLast_spec (s.take i) hne
      rw [htl] at hd2 hd3
      by_cases hsp : IsSpace (DecodeLastRuneInString (s.take i)).1 = true
      · simp only [hsp, beq_iff_eq, Bool.true_eq_false, if_false]
        apply ih (i - (DecodeLastRuneInString (s.take i)).2) (by omega) (by omega)
        rw [drop_eq_chunk_append s (i - (DecodeLastRuneInString (s.take i)).2) i (by omega) hlen]
        refine SpaceOnly.cons _ _ ?_ ?_ ?_ hpost
        · intro h
          have := congrArg List.length h
          simp [List.length_drop, htl] at this
          omega
        · rw [hd3, List.length_drop, htl]; omega
        · rw [hd3]; exact hsp
      · have hf : IsSpace (DecodeLastRuneInString (s.take i)).1 = false := by simpa using hsp
        right
        refine ⟨i - (DecodeLastRuneInString (s.take i)).2, i, by simp [hf], by omega, hlen,
          hpost, hd3, by omega, hf⟩
    · have : i = 0 := by omega
      subst this
      simp only [h0, if_false]
      exact Or.inl ⟨trivial, by simpa using hpost⟩

/-- TrimRightFunc with IsSpace removes a white-space-only suffix and leaves a
string that is empty or ends with a rune that is not white space. -/
theorem TrimRightFunc_spec (s : GoString) :
    ∃ post, s = TrimRightFunc s IsSpace ++ post ∧ SpaceOnly post
      ∧ (TrimRightFunc s IsSpace = [] ∨
          IsSpace (DecodeLastRuneInString (TrimRightFunc s IsSpace)).1 = false) := by
  unfold TrimRightFunc lastIndexFunc
  rcases lastIndexFuncLoop_spec s s.length s.length (le_refl _) (le_refl _)
      (by simpa using SpaceOnly.nil) with ⟨h1, h2⟩ | ⟨k, j, h1, hkj, hj, hpost, hdec, hsz, hns⟩
  · rw [h1]
    exact ⟨s, by simp, h2, Or.inl (by simp)⟩
  · rw [h1]
    simp only
    have htl : (s.take j).length = j := by simp [List.length_take, hj]
    have hchunk := drop_eq_chunk_append s k j (by omega) hj
    have hclen : ((s.take j).drop k).length = j - k := by rw [List.length_drop, htl]
    have hcne : (s.take j).drop k ≠ [] := by
      intro h; rw [h] at hclen; simp at hclen; omega
    have hfwd : DecodeRuneInString (s.drop k) = DecodeLastRuneInString (s.take j) := by
      rw [hchunk, Decode_append_full _ _ hcne (by rw [hdec, hsz, hclen])
        (SpaceOnly_head _ hpost), hdec]
    have hres : (if s.getD k 0 ≥ RuneSelf then s.take (k + (DecodeRuneInString (s.drop k)).2)
        else s.take (k + 1)) = s.take j := by
      by_cases hge : s.getD k 0 ≥ RuneSelf
      · rw [if_pos hge, hfwd, hsz]
        congr 1; omega
      · rw [if_neg hge]
        have hk : k < s.length := by omega
        have hlow : s.getD k 0 < 0x80 := by unfold RuneSelf at hge; omega
        have h2 : DecodeRuneInString (s.drop k) = (s.getD k 0, 1) := by
          rw [drop_eq_getD_cons s k hk]; exact Decode_low _ _ hlow
        rw [hfwd] at h2
        rw [h2] at hsz
        simp only at hsz
        congr 1; omega
    rw [hres]
    refine ⟨s.drop j, (List.take_append_drop j s).symm, hpost, Or.inr hns⟩

/-- TrimFunc with IsSpace removes white space at both ends and nothing else. -/
theorem TrimFunc_spec (s : GoString) :
    ∃ pre post, s = pre ++ TrimFunc s IsSpace ++ post ∧ SpaceOnly pre ∧ SpaceOnly post
      ∧ NoSpaceAtEnds (TrimFunc s IsSpace) := by
  obtain ⟨pre, h1, h2, h3⟩ := TrimLeftFunc_spec s
  obtain ⟨post, h4, h5, h6⟩ := TrimRightFunc_spec (TrimLeftFunc s IsSpace)
  have h7 := left_edge _ _ _ h4 h3
  refine ⟨pre, post, ?_, h2, h5, ?_⟩
  · unfold TrimFunc
    rw [List.append_assoc, ← h4]; exact h1
  · unfold TrimFunc NoSpaceAtEnds
    rcases h7 with h7 | h7
    · exact Or.inl h7
    · rcases h6 with h6 | h6
      · exact Or.inl h6
      · exact Or.inr ⟨h7, h6⟩

/-- A last byte below RuneSelf is the last rune, of width 1. -/
theorem DecodeLast_low (t : GoString) (ht : t ≠ [])
    (h : t.getD (t.length - 1) 0 < RuneSelf) :
    DecodeLastRuneInString t = (t.getD (t.length - 1) 0, 1) := by
  have hlen : 0 < t.length := List.length_pos.mpr ht
  have hidx : ((t.length : Int) - 1).toNat = t.length - 1 := by omega
  have h0 : ¬ t.length = 0 := by omega
  unfold DecodeLastRuneInString
  simp only [hidx, h0, if_false, h, if_true]

/-- The second loop of TrimSpace removes a white-space-only suffix and leaves a
string that is empty or ends with a rune that is not white space. -/
theorem trimSpaceStop_spec (t : GoString) (stop : Nat) (hstop : stop ≤ t.length)
    (hpost : SpaceOnly (t.drop stop)) :
    ∃ post, t = trimSpaceStop t stop ++ post ∧ SpaceOnly post
      ∧ (trimSpaceStop t stop = [] ∨
          IsSpace (DecodeLastRuneInString (trimSpaceStop t stop)).1 = false) := by
  induction stop with
  | zero =>
    exact ⟨t, by simp [trimSpaceStop], by simpa using hpost, Or.inl (by simp [trimSpaceStop])⟩
  | succ n ih =>
    have hn : n < t.length := by omega
    unfold trimSpaceStop
    simp only
    by_cases hge : t.getD n 0 ≥ RuneSelf
    · rw [if_pos hge]
      obtain ⟨post, h1, h2, h3⟩ := TrimRightFunc_spec (t.take (n + 1))
      refine ⟨post ++ t.drop (n + 1), ?_, SpaceOnly_append _ _ h2 hpost, h3⟩
      rw [← List.append_assoc, ← h1, List.take_append_drop]
    · rw [if_neg hge]
      have hlow : t.getD n 0 < 0x80 := by unfold RuneSelf at hge; omega
      by_cases hsp : asciiSpace (t.getD n 0) = false
      · rw [if_pos hsp]
        refine ⟨t.drop (n + 1), (List.take_append_drop _ _).symm, hpost, Or.inr ?_⟩
        have htl : (t.take (n + 1)).length = n + 1 := by
          simp [List.length_take]; omega
        have hne : t.take (n + 1) ≠ [] := by
          intro h; rw [h] at htl; simp at htl
        have hget : (t.take (n + 1)).getD ((t.take (n + 1)).length - 1) 0 = t.getD n 0 := by
          rw [htl]
          simp [List.getD_eq_getElem?_getD, List.getElem?_take]
        rw [DecodeLast_low _ hne (by rw [hget]; omega), hget]
        simp only
        rw [IsSpace_ascii _ hlow]; exact hsp
      · rw [if_neg hsp]
        have hsp2 : asciiSpace (t.getD n 0) = true := by simpa using hsp
        apply ih (by omega)
        rw [drop_eq_getD_cons t n hn]
        exact SpaceOnly_ascii _ _ hlow hsp2 hpost

/-- TrimSpace removes a white-space-only prefix and a white-space-only suffix,
and what it returns is empty or has no white space at either end. -/
theorem TrimSpace_spec (s : GoString) :
    ∃ pre post, s = pre ++ TrimSpace s ++ post ∧ SpaceOnly pre ∧ SpaceOnly post
      ∧ NoSpaceAtEnds (TrimSpace s) := by
  unfold TrimSpace
  induction s with
  | nil =>
    exact ⟨[], [], by simp [trimSpaceStart, trimSpaceStop], SpaceOnly.nil, SpaceOnly.nil,
      Or.inl (by simp [trimSpaceStart, trimSpaceStop])⟩
  | cons c rest ih =>
    unfold trimSpaceStart
    by_cases hge : c ≥ RuneSelf
    · rw [if_pos hge]
      exact TrimFunc_spec (c :: rest)
    · rw [if_neg hge]
      have hlow : c < 0x80 := by unfold RuneSelf at hge; omega
      by_cases hsp : asciiSpace c = false
      · rw [if_pos hsp]
        obtain ⟨post, h1, h2, h3⟩ := trimSpaceStop_spec (c :: rest) (c :: rest).length
          (le_refl _) (by simpa using SpaceOnly.nil)
        have hl : c :: rest = [] ∨ IsSpace (DecodeRuneInString (c :: rest)).1 = false := by
          right
          rw [Decode_low c rest hlow]
          simp only
          rw [IsSpace_ascii c hlow]; exact hsp
        have h4 := left_edge _ _ _ h1 hl
        refine ⟨[], post, by simpa using h1, SpaceOnly.nil, h2, ?_⟩
        unfold NoSpaceAtEnds
        rcases h4 with h4 | h4
        · exact Or.inl h4
        · rcases h3 with h3 | h3
          · exact Or.inl h3
          · exact Or.inr ⟨h4, h3⟩
      · rw [if_neg hsp]
        have hsp2 : asciiSpace c = true := by simpa using hsp
        obtain ⟨pre, post, h1, h2, h3, h4⟩ := ih
        refine ⟨c :: pre, post, ?_, SpaceOnly_ascii c pre hlow hsp2 h2, h3, h4⟩
        simp only [List.cons_append, List.cons.injEq, true_and]
        exact h1

/-- Dropping the first rune of a white-space-only string leaves one. -/
theorem SpaceOnly_tail (s : GoString) (hs : SpaceOnly s) :
    SpaceOnly (s.drop (DecodeRuneInString s).2) := by
  cases hs with
  | nil => simpa using SpaceOnly.nil
  | cons c rest hc hfull hsp hrest =>
    rw [Decode_append_space c rest hsp, hfull, List.drop_left' rfl]
    exact hrest

/-- What follows a white-space-only prefix of a white-space-only string is
white-space-only. -/
theorem SpaceOnly_cancel (pre r : GoString) (hpre : SpaceOnly pre)
    (h : SpaceOnly (pre ++ r)) : SpaceOnly r := by
  induction hpre with
  | nil => simpa using h
  | cons c rest hc hfull hsp _ ih =>
    apply ih
    have := SpaceOnly_tail _ h
    rw [List.append_assoc, Decode_append_space c _ hsp, hfull, List.drop_left' rfl] at this
    exact this

/-- TrimLeftFunc with IsSpace empties a white-space-only string. -/
theorem TrimLeftFunc_SpaceOnly (s : GoString) (hs : SpaceOnly s) :
    TrimLeftFunc s IsSpace = [] := by
  unfold TrimLeftFunc indexFunc
  rcases indexFuncLoop_spec s.length s 0 (le_refl _) with ⟨h1, _⟩ | ⟨pre, r, h1, h2, h3, h4, _⟩
  · rw [h1]
  · rw [h1] at hs
    have := SpaceOnly_decode r (SpaceOnly_cancel pre r h2 hs) h3
    rw [this] at h4
    exact absurd h4 (by simp)

/-- A string made only of white space is trimmed to the empty string. -/
theorem TrimSpace_SpaceOnly (s : GoString) (hs : SpaceOnly s) : TrimSpace s = [] := by
  unfold TrimSpace
  induction s with
  | nil => simp [trimSpaceStart, trimSpaceStop]
  | cons c rest ih =>
    unfold trimSpaceStart
    by_cases hge : c ≥ RuneSelf
    · rw [if_pos hge]
      unfold TrimFunc
      rw [TrimLeftFunc_SpaceOnly _ hs]
      decide
    · rw [if_neg hge]
      have hlow : c < 0x80 := by unfold RuneSelf at hge; omega
      have hd := SpaceOnly_decode _ hs (by simp)
      rw [Decode_low c rest hlow] at hd
      simp only at hd
      rw [IsSpace_ascii c hlow] at hd
      have hsp : ¬ asciiSpace c = false := by simp [hd]
      rw [if_neg hsp]
      apply ih
      have := SpaceOnly_tail _ hs
      rw [Decode_low c rest hlow] at this
      simpa using this

/-! ## The fuel of the loops is enough -/

/-- The backward scan gives the same result for every fuel above the distance
between `start` and `lim`; in DecodeLastRuneInString that distance is at most 2. -/
theorem scanRuneStart_fuel (s : GoString) (lim : Int) (fuel₁ fuel₂ : Nat) (start : Int)
    (h₁ : start - lim < fuel₁) (h₂ : start - lim < fuel₂) :
    scanRuneStart s lim fuel₁ start = scanRuneStart s lim fuel₂ start := by
  induction fuel₁ generalizing fuel₂ start with
  | zero =>
    cases fuel₂ with
    | zero => rfl
    | succ m =>
      have : ¬ start ≥ lim := by omega
      simp [scanRuneStart, this]
  | succ n ih =>
    cases fuel₂ with
    | zero =>
      have : ¬ start ≥ lim := by omega
      simp [scanRuneStart, this]
    | succ m =>
      unfold scanRuneStart
      by_cases hs : start ≥ lim
      · simp only [hs, if_true]
        split_ifs
        · rfl
        · exact ih m (start - 1) (by omega) (by omega)
      · simp only [hs, if_false]

/-- The loop of indexFunc gives the same result for every fuel of at least the
length of the string left to read. -/
theorem indexFuncLoop_fuel (f : Nat → Bool) (truth : Bool) (fuel₁ fuel₂ : Nat)
    (rest : GoString) (i : Nat) (h₁ : rest.length ≤ fuel₁) (h₂ : rest.length ≤ fuel₂) :
    indexFuncLoop f truth fuel₁ rest i = indexFuncLoop f truth fuel₂ rest i := by
  induction fuel₁ generalizing fuel₂ rest i with
  | zero =>
    have : rest = [] := List.length_eq_zero.mp (by omega)
    subst this
    cases fuel₂ <;> simp [indexFuncLoop]
  | succ n ih =>
    cases fuel₂ with
    | zero =>
      have : rest = [] := List.length_eq_zero.mp (by omega)
      subst this
      simp [indexFuncLoop]
    | succ m =>
      unfold indexFuncLoop
      rcases rest with _ | ⟨a, r⟩
      · simp
      · have hsz := Decode_size a r
        simp only [List.length_cons, Nat.add_one_ne_zero, if_false]
        split_ifs
        · rfl
        · apply ih
          · simp only [List.length_drop, List.length_cons] at *; omega
          · simp only [List.length_drop, List.length_cons] at *; omega

/-- The loop of lastIndexFunc gives the same result for every fuel of at least
the index it starts from. -/
theorem lastIndexFuncLoop_fuel (s : GoString) (f : Nat → Bool) (truth : Bool)
    (fuel₁ fuel₂ i : Nat) (hi : i ≤ s.length) (h₁ : i ≤ fuel₁) (h₂ : i ≤ fuel₂) :
    lastIndexFuncLoop s f truth fuel₁ i = lastIndexFuncLoop s f truth fuel₂ i := by
  induction fuel₁ generalizing fuel₂ i with
  | zero =>
    have : i = 0 := by omega
    subst this
    cases fuel₂ <;> simp [lastIndexFuncLoop]
  | succ n ih =>
    cases fuel₂ with
    | zero =>
      have : i = 0 := by omega
      subst this
      simp [lastIndexFuncLoop]
    | succ m =>
      unfold lastIndexFuncLoop
      by_cases h0 : i > 0
      · simp only [h0, if_true]
        have htl : (s.take i).length = i := by simp [List.length_take, hi]
        have hne : s.take i ≠ [] := by
          intro h; rw [h] at htl; simp at htl; omega
        obtain ⟨hd1, hd2, _⟩ := DecodeLast_spec (s.take i) hne
        rw [htl] at hd2
        split_ifs
        · rfl
        · exact ih m _ (by omega) (by omega) (by omega)
      · simp only [h0, if_false]

/-- In DecodeLastRuneInString the scan starts at most two positions above `lim`,
so the fuel UTFMax is enough: more fuel gives the same start. -/
theorem DecodeLast_scan_enough (s : GoString) (fuel : Nat) (hfuel : UTFMax ≤ fuel) :
    scanRuneStart s
        (if (s.length : Int) - (UTFMax : Int) < 0 then 0 else (s.length : Int) - (UTFMax : Int))
        fuel ((s.length : Int) - 1 - 1)
      = scanRuneStart s
        (if (s.length : Int) - (UTFMax : Int) < 0 then 0 else (s.length : Int) - (UTFMax : Int))
        UTFMax ((s.length : Int) - 1 - 1) := by
  unfold UTFMax at hfuel
  apply scanRuneStart_fuel
  · unfold UTFMax; split_ifs <;> omega
  · unfold UTFMax; split_ifs <;> omega

/-- The fuel of indexFunc is enough: more fuel gives the same index. -/
theorem indexFunc_enough (s : GoString) (f : Nat → Bool) (truth : Bool) (fuel : Nat)
    (hfuel : s.length ≤ fuel) : indexFuncLoop f truth fuel s 0 = indexFunc s f truth :=
  indexFuncLoop_fuel f truth fuel s.length s 0 hfuel (le_refl _)

/-- The fuel of lastIndexFunc is enough: more fuel gives the same index. -/
theorem lastIndexFunc_enough (s : GoString) (f : Nat → Bool) (truth : Bool) (fuel : Nat)
    (hfuel : s.length ≤ fuel) :
    lastIndexFuncLoop s f truth fuel s.length = lastIndexFunc s f truth :=
  lastIndexFuncLoop_fuel s f truth fuel s.length s.length (le_refl _) hfuel (le_refl _)

/-! ## The code against the closed form -/

/-- With exactly one matched secret the call returns the closed-form extraction
with a nil error, records the one request, and appends the observations for the
missing fields to the log. -/
theorem single_eq (ctx : Context) (h : Helper) (namespace_ labelKey : String)
    (secretObj : Secret)
    (hq : h.store ctx namespace_ labelKey = Except.ok [secretObj]) :
    GetKeystoneOverridesByLabel ctx h namespace_ labelKey =
      ((some (presentEntries secretObj.Data), none),
        { store := h.store,
          calls := h.calls ++ [⟨ctx, namespace_, labelKey⟩],
          logs := h.logs ++ missingFieldLogs secretObj }) := by
  rcases hr : secretObj.Data.lookup "region" with _ | vr <;>
  rcases ha : secretObj.Data.lookup "auth_url" with _ | va <;>
  rcases hw : secretObj.Data.lookup "www_authenticate_uri" with _ | vw <;>
  simp only [GetKeystoneOverridesByLabel, Helper.ListSecrets, hq, hr, ha, hw,
    List.length_singleton, one_ne_zero, ↓reduceDIte, gt_iff_lt, lt_self_iff_false, ↓reduceIte,
    List.get_eq_getElem, List.getElem_cons_zero, presentEntries, missingFieldLogs,
    missingFieldEntry, recognized,
    List.filterMap_cons, List.filterMap_nil, Option.map_some', Option.map_none',
    List.filter_cons, List.filter_nil, Option.isNone_none, Option.isNone_some,
    List.map_cons, List.map_nil, Helper.Info, OverrideMap.set, List.append_assoc,
    List.singleton_append, List.append_nil, Bool.false_eq_true, String.reduceEq,
    String.reduceAppend, List.cons_append, List.nil_append]

/-- The keys of the closed-form extraction are the recognized names present. -/
theorem presentEntries_keys (data : List (String × ByteSlice)) :
    (presentEntries data).keys = recognized.filter (fun k => (data.lookup k).isSome) := by
  rcases hr : data.lookup "region" with _ | vr <;>
  rcases ha : data.lookup "auth_url" with _ | va <;>
  rcases hw : data.lookup "www_authenticate_uri" with _ | vw <;>
  simp [presentEntries, recognized, OverrideMap.keys, hr, ha, hw, List.filter]

/-- Reading a recognized key of the closed-form extraction gives the trimmed
string of the payload of that same field, or nothing when the field is absent. -/
theorem presentEntries_lookup (data : List (String × ByteSlice)) (k : String)
    (hk : k ∈ recognized) :
    (presentEntries data).lookup k = (data.lookup k).map (fun v => TrimSpace (string v)) := by
  simp only [recognized, List.mem_cons, List.mem_singleton, List.not_mem_nil, or_false] at hk
  rcases hr : data.lookup "region" with _ | vr <;>
  rcases ha : data.lookup "auth_url" with _ | va <;>
  rcases hw : data.lookup "www_authenticate_uri" with _ | vw <;>
  rcases hk with rfl | rfl | rfl <;>
  simp [presentEntries, recognized, hr, ha, hw, List.lookup]

/-- A key outside the recognized names is not in the closed-form extraction. -/
theorem presentEntries_lookup_other (data : List (String × ByteSlice)) (k : String)
    (hk : k ∉ recognized) : (presentEntries data).lookup k = none := by
  simp only [recognized, List.mem_cons, List.mem_singleton, List.not_mem_nil, or_false,
    not_or] at hk
  obtain ⟨h1, h2, h3⟩ := hk
  have b1 : (k == "region") = false := by simpa using h1
  have b2 : (k == "auth_url") = false := by simpa using h2
  have b3 : (k == "www_authenticate_uri") = false := by simpa using h3
  rcases hr : data.lookup "region" with _ | vr <;>
  rcases ha : data.lookup "auth_url" with _ | va <;>
  rcases hw : data.lookup "www_authenticate_uri" with _ | vw <;>
  simp [presentEntries, recognized, hr, ha, hw, List.lookup, b1, b2, b3]

/-- The log of missing fields and the extracted keys together cover the three
recognized names. -/
theorem missing_plus_present (secretObj : Secret) :
    (missingFieldLogs secretObj).length + (presentEntries secretObj.Data).length = 3 := by
  rcases hr : secretObj.Data.lookup "region" with _ | vr <;>
  rcases ha : secretObj.Data.lookup "auth_url" with _ | va <;>
  rcases hw : secretObj.Data.lookup "www_authenticate_uri" with _ | vw <;>
  simp [presentEntries, missingFieldLogs, recognized, hr, ha, hw, List.filter]


/-! ## The four outcomes of the call -/

/-- A failed query: nil map, the cause wrapped with the label in the message,
one request recorded, nothing logged. -/
theorem query_error_eq (ctx : Context) (h : Helper) (namespace_ labelKey : String)
    (e : GoError) (hq : h.store ctx namespace_ labelKey = Except.error e) :
    GetKeystoneOverridesByLabel ctx h namespace_ labelKey =
      ((none, some (GoError.wrapError
          ("error getting secrets with label " ++ labelKey ++ ": " ++ e.Error) e)),
        { store := h.store,
          calls := h.calls ++ [⟨ctx, namespace_, labelKey⟩],
          logs := h.logs }) := by
  simp [GetKeystoneOverridesByLabel, Helper.ListSecrets, hq]

/-- No match: the empty map, nil error, one request recorded, one observation
at verbosity 1. -/
theorem zero_eq (ctx : Context) (h : Helper) (namespace_ labelKey : String)
    (hq : h.store ctx namespace_ labelKey = Except.ok []) :
    GetKeystoneOverridesByLabel ctx h namespace_ labelKey =
      ((some [], none),
        { store := h.store,
          calls := h.calls ++ [⟨ctx, namespace_, labelKey⟩],
          logs := h.logs ++ [⟨1, "No secrets found with label " ++ labelKey, []⟩] }) := by
  simp [GetKeystoneOverridesByLabel, Helper.ListSecrets, Helper.Info, hq]

/-- Two or more matches: nil map, an error made from the label alone, one
request recorded, nothing logged. -/
theorem many_eq (ctx : Context) (h : Helper) (namespace_ labelKey : String)
    (secrets : List Secret) (hq : h.store ctx namespace_ labelKey = Except.ok secrets)
    (hmany : 2 ≤ secrets.length) :
    GetKeystoneOverridesByLabel ctx h namespace_ labelKey =
      ((none, some (GoError.errorString
          ("multiple secrets found with label " ++ labelKey ++ ", only one is allowed"))),
        { store := h.store,
          calls := h.calls ++ [⟨ctx, namespace_, labelKey⟩],
          logs := h.logs }) := by
  have h0 : ¬ secrets.length = 0 := by omega
  have h1 : secrets.length > 1 := by omega
  simp [GetKeystoneOverridesByLabel, Helper.ListSecrets, hq, h0, h1]

/-- The closed-form extraction reads only the trimmed strings of the three
recognized fields. -/
theorem presentEntries_congr (d₁ d₂ : List (String × ByteSlice))
    (hd : ∀ k ∈ recognized, (d₁.lookup k).map string = (d₂.lookup k).map string) :
    presentEntries d₁ = presentEntries d₂ := by
  have key : ∀ (d : List (String × ByteSlice)) (k : String),
      (d.lookup k).map (fun v => (k, TrimSpace (string v)))
        = ((d.lookup k).map string).map (fun b => (k, TrimSpace b)) := by
    intro d k
    cases d.lookup k <;> rfl
  unfold presentEntries
  apply List.filterMap_congr
  intro k hk
  rw [key d₁ k, key d₂ k, hd k hk]

/-! ## The cardinality contract and error propagation -/

/-- C1: when the store query succeeds with two or more matching secrets, the call
returns a nil map and a non-nil error; the error is made from the label
selector alone, so it is the same whatever the matched objects contain, and
nothing is logged. -/
theorem ambiguous_returns_error (ctx : Context) (h : Helper) (namespace_ labelKey : String)
    (secrets : List Secret)
    (hq : h.store ctx namespace_ labelKey = Except.ok secrets)
    (hmany : 2 ≤ secrets.length) :
    (GetKeystoneOverridesByLabel ctx h namespace_ labelKey).1.1 = none
    ∧ (GetKeystoneOverridesByLabel ctx h namespace_ labelKey).1.2 ≠ none
    ∧ (GetKeystoneOverridesByLabel ctx h namespace_ labelKey).1.2 =
        some (GoError.errorString
          ("multiple secrets found with label " ++ labelKey ++ ", only one is allowed"))
    ∧ (GetKeystoneOverridesByLabel ctx h namespace_ labelKey).2.logs = h.logs := by
  rw [many_eq ctx h namespace_ labelKey secrets hq hmany]
  simp

/-- Witness of C1: two different secrets under the same label. -/
theorem ambiguous_returns_error_witness :
    (helperAnswering (Except.ok [scenarioSecret, fullSecret])).store ⟨0⟩ "openstack"
        "keystone-override" = Except.ok [scenarioSecret, fullSecret]
    ∧ 2 ≤ [scenarioSecret, fullSecret].length
    ∧ (GetKeystoneOverridesByLabel ⟨0⟩ (helperAnswering (Except.ok [scenarioSecret, fullSecret]))
        "openstack" "keystone-override").1.1 = none
    ∧ (GetKeystoneOverridesByLabel ⟨0⟩ (helperAnswering (Except.ok [scenarioSecret, fullSecret]))
        "openstack" "keystone-override").1.2 ≠ none :=
  have w := ambiguous_returns_error ⟨0⟩ (helperAnswering (Except.ok [scenarioSecret, fullSecret]))
    "openstack" "keystone-override" [scenarioSecret, fullSecret] rfl (by decide)
  ⟨rfl, by decide, w.1, w.2.1⟩

/-- C2: when the store query succeeds with no matching secret, the call returns
an empty map that is not nil, and a nil error; the only observation it emits is
the one at verbosity 1 saying that no secret was found. -/
theorem zero_matches_empty_map (ctx : Context) (h : Helper) (namespace_ labelKey : String)
    (hq : h.store ctx namespace_ labelKey = Except.ok []) :
    (GetKeystoneOverridesByLabel ctx h namespace_ labelKey).1 = (some [], none)
    ∧ (∃ m : OverrideMap, (GetKeystoneOverridesByLabel ctx h namespace_ labelKey).1.1 = some m
        ∧ m.length = 0)
    ∧ (GetKeystoneOverridesByLabel ctx h namespace_ labelKey).1.2 = none
    ∧ (GetKeystoneOverridesByLabel ctx h namespace_ labelKey).2.logs =
        h.logs ++ [⟨1, "No secrets found with label " ++ labelKey, []⟩] := by
  rw [zero_eq ctx h namespace_ labelKey hq]
  simp

/-- Witness of C2: a store with no secret under the label. -/
theorem zero_matches_empty_map_witness :
    (helperAnswering (Except.ok [])).store ⟨0⟩ "openstack" "keystone-override" = Except.ok []
    ∧ (GetKeystoneOverridesByLabel ⟨0⟩ (helperAnswering (Except.ok [])) "openstack"
        "keystone-override").1 = (some [], none) :=
  ⟨rfl, (zero_matches_empty_map ⟨0⟩ (helperAnswering (Except.ok [])) "openstack"
    "keystone-override" rfl).1⟩

/-- C5: when the list query fails with cause `e`, the call returns a nil map and
a non-nil error whose `Unwrap` is `e`; exactly one request was sent to the
store (no second attempt), with the given context, namespace and selector. -/
theorem query_failure_wrapped (ctx : Context) (h : Helper) (namespace_ labelKey : String)
    (e : GoError)
    (hq : h.store ctx namespace_ labelKey = Except.error e) :
    (GetKeystoneOverridesByLabel ctx h namespace_ labelKey).1.1 = none
    ∧ (∃ err, (GetKeystoneOverridesByLabel ctx h namespace_ labelKey).1.2 = some err
        ∧ err.Unwrap = some e
        ∧ err.Error = "error getting secrets with label " ++ labelKey ++ ": " ++ e.Error)
    ∧ (GetKeystoneOverridesByLabel ctx h namespace_ labelKey).2.calls =
        h.calls ++ [⟨ctx, namespace_, labelKey⟩] := by
  rw [query_error_eq ctx h namespace_ labelKey e hq]
  simp [GoError.Unwrap, GoError.Error]

/-- Witness of C5: the store refuses the request. -/
theorem query_failure_wrapped_witness :
    (helperAnswering (Except.error forbidden)).store ⟨0⟩ "openstack" "keystone-override"
        = Except.error forbidden
    ∧ (GetKeystoneOverridesByLabel ⟨0⟩ (helperAnswering (Except.error forbidden)) "openstack"
        "keystone-override").1.1 = none
    ∧ (∃ err, (GetKeystoneOverridesByLabel ⟨0⟩ (helperAnswering (Except.error forbidden))
          "openstack" "keystone-override").1.2 = some err
        ∧ err.Unwrap = some forbidden
        ∧ err.Error = "error getting secrets with label " ++ "keystone-override" ++ ": "
            ++ forbidden.Error)
    ∧ (GetKeystoneOverridesByLabel ⟨0⟩ (helperAnswering (Except.error forbidden)) "openstack"
        "keystone-override").2.calls =
        (helperAnswering (Except.error forbidden)).calls
          ++ [⟨⟨0⟩, "openstack", "keystone-override"⟩] :=
  ⟨rfl, query_failure_wrapped ⟨0⟩ (helperAnswering (Except.error forbidden)) "openstack"
    "keystone-override" forbidden rfl⟩


/-! ## Extraction from the single matched secret -/

/-- C3: with exactly one matched secret whose data has all three recognized
fields, the call returns a nil error and the map with exactly the keys region,
auth_url and www_authenticate_uri, each mapped to the trimmed string of the
payload of that same field. -/
theorem all_fields_present (ctx : Context) (h : Helper) (namespace_ labelKey : String)
    (secretObj : Secret) (vr va vw : ByteSlice)
    (hq : h.store ctx namespace_ labelKey = Except.ok [secretObj])
    (hr : secretObj.Data.lookup "region" = some vr)
    (ha : secretObj.Data.lookup "auth_url" = some va)
    (hw : secretObj.Data.lookup "www_authenticate_uri" = some vw) :
    ∃ m : OverrideMap,
      (GetKeystoneOverridesByLabel ctx h namespace_ labelKey).1 = (some m, none)
      ∧ m = [("region", TrimSpace (string vr)), ("auth_url", TrimSpace (string va)),
          ("www_authenticate_uri", TrimSpace (string vw))]
      ∧ m.keys = ["region", "auth_url", "www_authenticate_uri"]
      ∧ m.lookup "region" = some (TrimSpace (string vr))
      ∧ m.lookup "auth_url" = some (TrimSpace (string va))
      ∧ m.lookup "www_authenticate_uri" = some (TrimSpace (string vw)) := by
  rw [single_eq ctx h namespace_ labelKey secretObj hq]
  simp [presentEntries, recognized, hr, ha, hw, OverrideMap.keys, List.lookup]

/-- Witness of C3: the secret with all three fields and two unknown ones. -/
theorem all_fields_present_witness :
    ∃ m : OverrideMap,
      (GetKeystoneOverridesByLabel ⟨0⟩ (helperAnswering (Except.ok [fullSecret])) "openstack"
        "keystone-override").1 = (some m, none)
      ∧ m = [("region", TrimSpace (string (some (ascii "\tregionTwo\n")))),
          ("auth_url", TrimSpace (string (some (ascii "  https://example.com  ")))),
          ("www_authenticate_uri",
            TrimSpace (string (some (ascii " https://example.com/v3 identity "))))]
      ∧ m.keys = ["region", "auth_url", "www_authenticate_uri"]
      ∧ m.lookup "region" = some (TrimSpace (string (some (ascii "\tregionTwo\n"))))
      ∧ m.lookup "auth_url" = some (TrimSpace (string (some (ascii "  https://example.com  "))))
      ∧ m.lookup "www_authenticate_uri" =
          some (TrimSpace (string (some (ascii " https://example.com/v3 identity ")))) :=
  all_fields_present ⟨0⟩ (helperAnswering (Except.ok [fullSecret])) "openstack"
    "keystone-override" fullSecret _ _ _ rfl (by decide) (by decide) (by decide)

/-- C4: with exactly one matched secret, the keys of the returned map are
exactly the recognized field names present in the data of the secret (in the
order region, auth_url, www_authenticate_uri); a field absent from the data has
no entry in the map, not even one with an empty value. -/
theorem keys_are_present_fields (ctx : Context) (h : Helper) (namespace_ labelKey : String)
    (secretObj : Secret)
    (hq : h.store ctx namespace_ labelKey = Except.ok [secretObj]) :
    ∃ m : OverrideMap,
      (GetKeystoneOverridesByLabel ctx h namespace_ labelKey).1 = (some m, none)
      ∧ m.keys = recognized.filter (fun k => (secretObj.Data.lookup k).isSome)
      ∧ (∀ k, k ∈ m.keys ↔ k ∈ recognized ∧ (secretObj.Data.lookup k).isSome = true)
      ∧ (∀ k, secretObj.Data.lookup k = none → m.lookup k = none ∧ k ∉ m.keys) := by
  rw [single_eq ctx h namespace_ labelKey secretObj hq]
  have hkeys := presentEntries_keys secretObj.Data
  have hmem : ∀ k, k ∈ (presentEntries secretObj.Data).keys ↔
      k ∈ recognized ∧ (secretObj.Data.lookup k).isSome = true := by
    intro k; rw [hkeys, List.mem_filter]
  refine ⟨presentEntries secretObj.Data, rfl, hkeys, hmem, ?_⟩
  intro k hk
  have hnot : k ∉ (presentEntries secretObj.Data).keys := by
    rw [hmem]; simp [hk]
  refine ⟨?_, hnot⟩
  by_cases hrec : k ∈ recognized
  · rw [presentEntries_lookup _ k hrec, hk]; rfl
  · exact presentEntries_lookup_other _ k hrec

/-- Witness of C4: the scenario of the specification; region and auth_url are
returned trimmed and there is no www_authenticate_uri key. -/
theorem keys_are_present_fields_witness :
    (GetKeystoneOverridesByLabel ⟨0⟩ (helperAnswering (Except.ok [scenarioSecret])) "openstack"
        "keystone-override").1 =
      (some [("region", ascii "regionOne"), ("auth_url", ascii "https://kc.example/v3")], none)
    ∧ ∃ m : OverrideMap,
      (GetKeystoneOverridesByLabel ⟨0⟩ (helperAnswering (Except.ok [scenarioSecret])) "openstack"
        "keystone-override").1 = (some m, none)
      ∧ m.keys = recognized.filter (fun k => (scenarioSecret.Data.lookup k).isSome)
      ∧ (∀ k, k ∈ m.keys ↔ k ∈ recognized ∧ (scenarioSecret.Data.lookup k).isSome = true)
      ∧ (∀ k, scenarioSecret.Data.lookup k = none → m.lookup k = none ∧ k ∉ m.keys) :=
  ⟨by decide, keys_are_present_fields ⟨0⟩ (helperAnswering (Except.ok [scenarioSecret]))
    "openstack" "keystone-override" scenarioSecret rfl⟩

/-- C6: whenever the call returns a map, every key of it is one of region,
auth_url, www_authenticate_uri, a name outside these three has no entry, the
keys are distinct and the map has at most three entries. -/
theorem keys_within_whitelist (ctx : Context) (h : Helper) (namespace_ labelKey : String)
    (m : OverrideMap)
    (hm : (GetKeystoneOverridesByLabel ctx h namespace_ labelKey).1.1 = some m) :
    (∀ k ∈ m.keys, k ∈ recognized)
    ∧ (∀ k, k ∉ recognized → m.lookup k = none)
    ∧ m.keys.Nodup
    ∧ m.length ≤ 3 := by
  rcases hst : h.store ctx namespace_ labelKey with e | secrets
  · rw [query_error_eq ctx h namespace_ labelKey e hst] at hm
    simp at hm
  · rcases secrets with _ | ⟨s₁, _ | ⟨s₂, more⟩⟩
    · rw [zero_eq ctx h namespace_ labelKey hst] at hm
      simp only [Option.some.injEq] at hm
      subst hm
      simp [OverrideMap.keys, List.lookup]
    · rw [single_eq ctx h namespace_ labelKey s₁ hst] at hm
      simp only [Option.some.injEq] at hm
      subst hm
      have hkeys := presentEntries_keys s₁.Data
      refine ⟨?_, fun k hk => presentEntries_lookup_other _ k hk, ?_, ?_⟩
      · intro k hk
        rw [hkeys] at hk
        exact (List.mem_filter.mp hk).1
      · rw [hkeys]
        exact List.Nodup.filter _ (by decide)
      · have hl : (presentEntries s₁.Data).length = (presentEntries s₁.Data).keys.length := by
          simp [OverrideMap.keys]
        rw [hl, hkeys]
        exact le_trans (List.length_filter_le _ _) (by decide)
    · rw [many_eq ctx h namespace_ labelKey _ hst (by simp)] at hm
      simp at hm

/-- Witness of C6: the secret with two unknown fields next to the recognized
ones; the unknown names do not reach the map. -/
theorem keys_within_whitelist_witness :
    (GetKeystoneOverridesByLabel ⟨0⟩ (helperAnswering (Except.ok [fullSecret])) "openstack"
        "keystone-override").1.1 =
      some [("region", ascii "regionTwo"), ("auth_url", ascii "https://example.com"),
        ("www_authenticate_uri", ascii "https://example.com/v3 identity")]
    ∧ (∀ k ∈ OverrideMap.keys [("region", ascii "regionTwo"),
          ("auth_url", ascii "https://example.com"),
          ("www_authenticate_uri", ascii "https://example.com/v3 identity")], k ∈ recognized)
    ∧ List.lookup "password" [("region", ascii "regionTwo"),
          ("auth_url", ascii "https://example.com"),
          ("www_authenticate_uri", ascii "https://example.com/v3 identity")] = none :=
  have w := keys_within_whitelist ⟨0⟩ (helperAnswering (Except.ok [fullSecret])) "openstack"
    "keystone-override" [("region", ascii "regionTwo"), ("auth_url", ascii "https://example.com"),
      ("www_authenticate_uri", ascii "https://example.com/v3 identity")] (by decide)
  ⟨by decide, w.1, w.2.1 "password" (by decide)⟩


/-! ## Trimming -/

/-- C7: for a recognized field present in the single matched secret, the value
stored under its key is `TrimSpace` of the string of the payload; that value is
empty or has no white-space rune at its start or at its end, and the source is
a run of white space, then the value, then a run of white space, so the value
is a contiguous part of the source and white space inside it is kept. -/
theorem value_is_trimmed (ctx : Context) (h : Helper) (namespace_ labelKey : String)
    (secretObj : Secret) (k : String) (v : ByteSlice)
    (hq : h.store ctx namespace_ labelKey = Except.ok [secretObj])
    (hk : k ∈ recognized)
    (hv : secretObj.Data.lookup k = some v) :
    ∃ m : OverrideMap,
      (GetKeystoneOverridesByLabel ctx h namespace_ labelKey).1 = (some m, none)
      ∧ m.lookup k = some (TrimSpace (string v))
      ∧ NoSpaceAtEnds (TrimSpace (string v))
      ∧ ∃ pre post, string v = pre ++ TrimSpace (string v) ++ post
          ∧ SpaceOnly pre ∧ SpaceOnly post := by
  rw [single_eq ctx h namespace_ labelKey secretObj hq]
  obtain ⟨pre, post, h1, h2, h3, h4⟩ := TrimSpace_spec (string v)
  refine ⟨presentEntries secretObj.Data, rfl, ?_, h4, pre, post, h1, h2, h3⟩
  rw [presentEntries_lookup _ k hk, hv]; rfl

/-- Witness of C7: the value "  https://example.com  " is stored as
"https://example.com", and a value with a blank inside keeps it. -/
theorem value_is_trimmed_witness :
    TrimSpace (ascii "  https://example.com  ") = ascii "https://example.com"
    ∧ TrimSpace (ascii " https://example.com/v3 identity ")
        = ascii "https://example.com/v3 identity"
    ∧ ∃ m : OverrideMap,
      (GetKeystoneOverridesByLabel ⟨0⟩ (helperAnswering (Except.ok [fullSecret])) "openstack"
        "keystone-override").1 = (some m, none)
      ∧ m.lookup "auth_url" = some (TrimSpace (string (some (ascii "  https://example.com  "))))
      ∧ NoSpaceAtEnds (TrimSpace (string (some (ascii "  https://example.com  "))))
      ∧ ∃ pre post, string (some (ascii "  https://example.com  "))
            = pre ++ TrimSpace (string (some (ascii "  https://example.com  "))) ++ post
          ∧ SpaceOnly pre ∧ SpaceOnly post :=
  ⟨by decide, by decide,
    value_is_trimmed ⟨0⟩ (helperAnswering (Except.ok [fullSecret])) "openstack"
      "keystone-override" fullSecret "auth_url" (some (ascii "  https://example.com  "))
      rfl (by decide) (by decide)⟩

/-- C9: a recognized field present in the single matched secret with a payload
that is nil, of length zero, or made of white space only (all three are
`SpaceOnly` strings) is in the returned map with the empty string as value,
and none of the observations emitted by the call is the missing-field
observation of that field. -/
theorem blank_payload_is_present (ctx : Context) (h : Helper) (namespace_ labelKey : String)
    (secretObj : Secret) (k : String) (v : ByteSlice)
    (hq : h.store ctx namespace_ labelKey = Except.ok [secretObj])
    (hk : k ∈ recognized)
    (hv : secretObj.Data.lookup k = some v)
    (hblank : SpaceOnly (string v)) :
    ∃ (m : OverrideMap) (emitted : List LogEntry),
      (GetKeystoneOverridesByLabel ctx h namespace_ labelKey).1 = (some m, none)
      ∧ m.lookup k = some []
      ∧ k ∈ m.keys
      ∧ (GetKeystoneOverridesByLabel ctx h namespace_ labelKey).2.logs = h.logs ++ emitted
      ∧ (∀ e ∈ emitted, e.msg ≠ k ++ " key not found in keystone overrides secret") := by
  rw [single_eq ctx h namespace_ labelKey secretObj hq]
  refine ⟨presentEntries secretObj.Data, missingFieldLogs secretObj, rfl, ?_, ?_, rfl, ?_⟩
  · rw [presentEntries_lookup _ k hk, hv]
    simp [TrimSpace_SpaceOnly _ hblank]
  · rw [presentEntries_keys, List.mem_filter]
    exact ⟨hk, by simp [hv]⟩
  · simp only [recognized, List.mem_cons, List.mem_singleton, List.not_mem_nil, or_false] at hk
    rcases hk with rfl | rfl | rfl
    · rcases ha : secretObj.Data.lookup "auth_url" with _ | va <;>
      rcases hw : secretObj.Data.lookup "www_authenticate_uri" with _ | vw <;>
      simp [missingFieldLogs, missingFieldEntry, recognized, List.filter, hv, ha, hw]
    · rcases hr : secretObj.Data.lookup "region" with _ | vr <;>
      rcases hw : secretObj.Data.lookup "www_authenticate_uri" with _ | vw <;>
      simp [missingFieldLogs, missingFieldEntry, recognized, List.filter, hv, hr, hw]
    · rcases hr : secretObj.Data.lookup "region" with _ | vr <;>
      rcases ha : secretObj.Data.lookup "auth_url" with _ | va <;>
      simp [missingFieldLogs, missingFieldEntry, recognized, List.filter, hv, hr, ha]

/-- Witness of C9: the secret whose three fields carry a nil payload, an empty
payload and a payload of four white-space runes; the map has all three keys
with empty values and nothing is logged. -/
theorem blank_payload_is_present_witness :
    (GetKeystoneOverridesByLabel ⟨0⟩ (helperAnswering (Except.ok [blankSecret])) "openstack"
        "keystone-override").1 =
      (some [("region", []), ("auth_url", []), ("www_authenticate_uri", [])], none)
    ∧ (GetKeystoneOverridesByLabel ⟨0⟩ (helperAnswering (Except.ok [blankSecret])) "openstack"
        "keystone-override").2.logs = []
    ∧ SpaceOnly (string (some [0x20, 0xC2, 0xA0, 0xE3, 0x80, 0x80, 0x09]))
    ∧ ∃ (m : OverrideMap) (emitted : List LogEntry),
      (GetKeystoneOverridesByLabel ⟨0⟩ (helperAnswering (Except.ok [blankSecret])) "openstack"
        "keystone-override").1 = (some m, none)
      ∧ m.lookup "www_authenticate_uri" = some []
      ∧ "www_authenticate_uri" ∈ m.keys
      ∧ (GetKeystoneOverridesByLabel ⟨0⟩ (helperAnswering (Except.ok [blankSecret])) "openstack"
          "keystone-override").2.logs
          = (helperAnswering (Except.ok [blankSecret])).logs ++ emitted
      ∧ (∀ e ∈ emitted,
          e.msg ≠ "www_authenticate_uri" ++ " key not found in keystone overrides secret") :=
  have hsp : SpaceOnly (string (some [0x20, 0xC2, 0xA0, 0xE3, 0x80, 0x80, 0x09])) :=
    SpaceOnly.cons [0x20] _ (by decide) (by decide) (by decide)
      (SpaceOnly.cons [0xC2, 0xA0] _ (by decide) (by decide) (by decide)
        (SpaceOnly.cons [0xE3, 0x80, 0x80] _ (by decide) (by decide) (by decide)
          (SpaceOnly.cons [0x09] [] (by decide) (by decide) (by decide) SpaceOnly.nil)))
  ⟨by decide, by decide, hsp,
    blank_payload_is_present ⟨0⟩ (helperAnswering (Except.ok [blankSecret])) "openstack"
      "keystone-override" blankSecret "www_authenticate_uri"
      (some [0x20, 0xC2, 0xA0, 0xE3, 0x80, 0x80, 0x09]) rfl (by decide) (by decide) hsp⟩


/-! ## Observations and independence -/

/-- C8: with exactly one matched secret, the observations emitted by the call
are, in order, one informational entry (verbosity 0) for each recognized field
absent from the data, naming the field in its message and carrying the name of
the secret under "secretName"; each absent field has exactly one such entry and
a present field has none; their number plus the number of keys of the returned
map is three; and the returned map and error are the same whatever the log
held before the call. -/
theorem missing_fields_are_logged (ctx : Context) (h : Helper) (namespace_ labelKey : String)
    (secretObj : Secret)
    (hq : h.store ctx namespace_ labelKey = Except.ok [secretObj]) :
    ∃ (m : OverrideMap) (emitted : List LogEntry),
      (GetKeystoneOverridesByLabel ctx h namespace_ labelKey).1 = (some m, none)
      ∧ (GetKeystoneOverridesByLabel ctx h namespace_ labelKey).2.logs = h.logs ++ emitted
      ∧ emitted = (recognized.filter (fun k => (secretObj.Data.lookup k).isNone)).map
          (fun k => (⟨0, k ++ " key not found in keystone overrides secret",
            [("secretName", secretObj.Name)]⟩ : LogEntry))
      ∧ (∀ k ∈ recognized,
          emitted.count ⟨0, k ++ " key not found in keystone overrides secret",
            [("secretName", secretObj.Name)]⟩
            = if (secretObj.Data.lookup k).isNone then 1 else 0)
      ∧ emitted.length + m.keys.length = 3
      ∧ (∀ logs₀ : List LogEntry,
          (GetKeystoneOverridesByLabel ctx { h with logs := logs₀ } namespace_ labelKey).1
            = (some m, none)) := by
  rw [single_eq ctx h namespace_ labelKey secretObj hq]
  refine ⟨presentEntries secretObj.Data, missingFieldLogs secretObj, rfl, rfl, rfl, ?_, ?_, ?_⟩
  · intro k hk
    simp only [recognized, List.mem_cons, List.mem_singleton, List.not_mem_nil, or_false] at hk
    rcases hr : secretObj.Data.lookup "region" with _ | vr <;>
    rcases ha : secretObj.Data.lookup "auth_url" with _ | va <;>
    rcases hw : secretObj.Data.lookup "www_authenticate_uri" with _ | vw <;>
    rcases hk with rfl | rfl | rfl <;>
    simp [missingFieldLogs, missingFieldEntry, recognized, List.filter, hr, ha, hw,
      List.count_cons]
  · have := missing_plus_present secretObj
    simpa [OverrideMap.keys] using this
  · intro logs₀
    rw [single_eq ctx { h with logs := logs₀ } namespace_ labelKey secretObj hq]

/-- Witness of C8: the scenario secret lacks www_authenticate_uri; one
observation is emitted, for that field, and the map has the two other keys. -/
theorem missing_fields_are_logged_witness :
    (GetKeystoneOverridesByLabel ⟨0⟩ (helperAnswering (Except.ok [scenarioSecret])) "openstack"
        "keystone-override").2.logs =
      [⟨0, "www_authenticate_uri key not found in keystone overrides secret",
        [("secretName", "keystone-overrides")]⟩]
    ∧ ∃ (m : OverrideMap) (emitted : List LogEntry),
      (GetKeystoneOverridesByLabel ⟨0⟩ (helperAnswering (Except.ok [scenarioSecret])) "openstack"
        "keystone-override").1 = (some m, none)
      ∧ (GetKeystoneOverridesByLabel ⟨0⟩ (helperAnswering (Except.ok [scenarioSecret]))
          "openstack" "keystone-override").2.logs
          = (helperAnswering (Except.ok [scenarioSecret])).logs ++ emitted
      ∧ emitted = (recognized.filter (fun k => (scenarioSecret.Data.lookup k).isNone)).map
          (fun k => (⟨0, k ++ " key not found in keystone overrides secret",
            [("secretName", scenarioSecret.Name)]⟩ : LogEntry))
      ∧ (∀ k ∈ recognized,
          emitted.count ⟨0, k ++ " key not found in keystone overrides secret",
            [("secretName", scenarioSecret.Name)]⟩
            = if (scenarioSecret.Data.lookup k).isNone then 1 else 0)
      ∧ emitted.length + m.keys.length = 3
      ∧ (∀ logs₀ : List LogEntry,
          (GetKeystoneOverridesByLabel ⟨0⟩
            { helperAnswering (Except.ok [scenarioSecret]) with logs := logs₀ }
            "openstack" "keystone-override").1 = (some m, none)) :=
  ⟨by decide, missing_fields_are_logged ⟨0⟩ (helperAnswering (Except.ok [scenarioSecret]))
    "openstack" "keystone-override" scenarioSecret rfl⟩

/-- C10: two calls whose queries each return exactly one secret, the two
secrets agreeing on which recognized fields are present and on the strings of
their payloads, return the same map with a nil error, whatever the contexts,
helpers, namespaces, selectors, names of the secrets and their other fields. -/
theorem result_depends_on_recognized_fields_only
    (ctx₁ ctx₂ : Context) (h₁ h₂ : Helper) (namespace₁ namespace₂ labelKey₁ labelKey₂ : String)
    (secret₁ secret₂ : Secret)
    (hq₁ : h₁.store ctx₁ namespace₁ labelKey₁ = Except.ok [secret₁])
    (hq₂ : h₂.store ctx₂ namespace₂ labelKey₂ = Except.ok [secret₂])
    (hagree : ∀ k ∈ recognized,
      (secret₁.Data.lookup k).map string = (secret₂.Data.lookup k).map string) :
    (GetKeystoneOverridesByLabel ctx₁ h₁ namespace₁ labelKey₁).1
      = (GetKeystoneOverridesByLabel ctx₂ h₂ namespace₂ labelKey₂).1
    ∧ (GetKeystoneOverridesByLabel ctx₁ h₁ namespace₁ labelKey₁).1.2 = none
    ∧ ∃ m : OverrideMap, (GetKeystoneOverridesByLabel ctx₁ h₁ namespace₁ labelKey₁).1.1 = some m
        ∧ (GetKeystoneOverridesByLabel ctx₂ h₂ namespace₂ labelKey₂).1.1 = some m := by
  rw [single_eq ctx₁ h₁ namespace₁ labelKey₁ secret₁ hq₁,
    single_eq ctx₂ h₂ namespace₂ labelKey₂ secret₂ hq₂,
    presentEntries_congr secret₁.Data secret₂.Data hagree]
  exact ⟨rfl, rfl, _, rfl, rfl⟩

/-- Witness of C10: the scenario secret, and a secret of another name in
another namespace with the same two recognized fields in another order among
other fields. -/
theorem result_depends_on_recognized_fields_only_witness :
    (GetKeystoneOverridesByLabel ⟨0⟩ (helperAnswering (Except.ok [scenarioSecret])) "openstack"
        "keystone-override").1
      = (GetKeystoneOverridesByLabel ⟨7⟩ (helperAnswering (Except.ok [scenarioSecretRenamed]))
        "edge" "central-keystone").1
    ∧ (GetKeystoneOverridesByLabel ⟨0⟩ (helperAnswering (Except.ok [scenarioSecret])) "openstack"
        "keystone-override").1.2 = none :=
  have w := result_depends_on_recognized_fields_only ⟨0⟩ ⟨7⟩
    (helperAnswering (Except.ok [scenarioSecret]))
    (helperAnswering (Except.ok [scenarioSecretRenamed]))
    "openstack" "edge" "keystone-override" "central-keystone"
    scenarioSecret scenarioSecretRenamed rfl rfl (by decide)
  ⟨w.1, w.2.1⟩

end Keystone
